import Mathlib

/-!
Verification of the max-flow library (src/lib.rs).

The development shallowly embeds the Rust code: the dense edge matrix
`Vec<Vec<E>>` becomes `List (List E)`, machine integers become `Int`
(i32 capacities and flows; the source documents overflow as a known
limitation, and all statements here stay within range), `usize::MAX`
and `u32::MAX` sentinels are kept as explicit constants, and loops that
Rust runs unboundedly are given explicit fuel, with `none` standing for
both a panic and non-termination.  Vec-as-stack pushes and pops at one
end; here the head of the list models that end.
-/

namespace MaxFlowRs

/-- Sentinel usize::MAX used for absent parents. -/
def USIZE_MAX : Nat := 2 ^ 64 - 1

/-- Sentinel u32::MAX used for unvisited distances. -/
def U32_MAX : Nat := 2 ^ 32 - 1

/-- Modulus for u32 arithmetic on distances. -/
def U32_MOD : Nat := 2 ^ 32

/-- Initial value i32::MAX of the bottleneck accumulator in max_flow. -/
def I32_MAX : Int := 2 ^ 31 - 1

/-- Edge property of a flow graph: capacity and current flow (struct FlowEdge). -/
structure FlowEdge where
  capacity : Int
  flow : Int
deriving Repr, DecidableEq

instance : Inhabited FlowEdge := ⟨⟨0, 0⟩⟩

/-- Rust Default::default() for FlowEdge: capacity 0, flow 0. -/
def FlowEdge.zero : FlowEdge := ⟨0, 0⟩

/-- The graph structure: dense edge matrix, adjacency lists, edge and vertex counts. -/
structure Graph (E : Type) where
  edges : List (List E)
  neighbors : List (List Nat)
  n_edges : Nat
  n_vertexes : Nat
deriving Repr, DecidableEq

/-- Search mode selector (enum Search). -/
inductive Search where
  | Bfs
  | Dfs
deriving Repr, DecidableEq

/-- Checks that the vertex list is exactly 0, 1, ..., n-1 in order
(the assert in Graph::new). -/
def vertexesInOrder : List Nat → Nat → Bool
  | [], _ => true
  | v :: rest, k => v == k && vertexesInOrder rest (k + 1)

/-- One step of the edge-insertion loop of Graph::new: push the destination on
the source's adjacency row and write the property into the matrix.  Returns
none when an index is out of range, where the Rust code panics. -/
def insertEdges {E : Type} (n : Nat) :
    List (Nat × Nat × E) → (List (List Nat) × List (List E) × Nat) →
    Option (List (List Nat) × List (List E) × Nat)
  | [], st => some st
  | e :: rest, st =>
    if e.1 < n && e.2.1 < n then
      insertEdges n rest
        (st.1.set e.1 ((st.1.getD e.1 []).concat e.2.1),
         st.2.1.set e.1 ((st.2.1.getD e.1 []).set e.2.1 e.2.2),
         st.2.2 + 1)
    else
      none

/-- Graph::new.  Requires the vertex list to be 0..n-1 in order (assert), then
inserts every edge of the list: last write to a matrix slot wins, and the
destination is appended to the source's neighbor row.  none models a panic. -/
def Graph.new {E : Type} [Inhabited E] (vertex_list : List Nat)
    (edge_list : List (Nat × Nat × E)) : Option (Graph E) :=
  let n := vertex_list.length
  if vertexesInOrder vertex_list 0 then
    match insertEdges n edge_list
        (List.replicate n [], List.replicate n (List.replicate n default), 0) with
    | some st => some ⟨st.2.1, st.1, st.2.2, n⟩
    | none => none
  else
    none

/-- Reads the matrix slot u -> v of a raw edge matrix. -/
def mAt {E : Type} [Inhabited E] (m : List (List E)) (u v : Nat) : E :=
  (m.getD u []).getD v default

/-- Reads the matrix slot u -> v of a graph (self.edges[u][v]). -/
def edgeAt {E : Type} [Inhabited E] (g : Graph E) (u v : Nat) : E :=
  mAt g.edges u v

/-- Reads the adjacency row of a vertex (self.neighbors[v]). -/
def neighborsRow {E : Type} (g : Graph E) (v : Nat) : List Nat :=
  g.neighbors.getD v []

/-- create_residual_edges: appends, after the explicit edges, one reverse edge
with capacity 0 and flow 0 for every edge of the input list. -/
def create_residual_edges (edge_list : List (Nat × Nat × FlowEdge)) :
    List (Nat × Nat × FlowEdge) :=
  edge_list ++ edge_list.map (fun e => (e.2.1, e.1, FlowEdge.zero))

/-- State of the traversal engine (struct GraphIterator): frontier, distances,
parents and the sink-found flag.  The graph, predicate, search mode and sink
are passed to the step functions explicitly. -/
structure GraphIterator where
  queue : List Nat
  stack : List Nat
  distances : List Nat
  parents : List Nat
  sink_found : Bool
deriving Repr, DecidableEq

/-- GraphIterator::new: seed the frontier with the source, distances all
unvisited except source = 0, parents all sentinel.  none models the panic on a
source index out of range. -/
def GraphIterator.new {E : Type} (g : Graph E) (source : Nat) (search : Search) :
    Option GraphIterator :=
  if source < g.n_vertexes then
    some
      { queue := match search with | .Bfs => [source] | .Dfs => []
        stack := match search with | .Bfs => [] | .Dfs => [source]
        distances := (List.replicate g.n_vertexes U32_MAX).set source 0
        parents := List.replicate g.n_vertexes USIZE_MAX
        sink_found := false }
  else
    none

/-- GraphIterator::pop: front of the FIFO queue in Bfs mode, top of the LIFO
stack in Dfs mode. -/
def GraphIterator.pop (search : Search) (st : GraphIterator) :
    Option (Nat × GraphIterator) :=
  match search with
  | .Bfs =>
    match st.queue with
    | [] => none
    | v :: rest => some (v, { st with queue := rest })
  | .Dfs =>
    match st.stack with
    | [] => none
    | v :: rest => some (v, { st with stack := rest })

/-- GraphIterator::push: back of the queue in Bfs mode, top of the stack in
Dfs mode. -/
def GraphIterator.push (search : Search) (st : GraphIterator) (v : Nat) :
    GraphIterator :=
  match search with
  | .Bfs => { st with queue := st.queue ++ [v] }
  | .Dfs => { st with stack := v :: st.stack }

/-- The neighbor loop of GraphIterator::next: for every neighbor of the popped
vertex that is unvisited and admissible, set its distance (u32 arithmetic) and
parent and push it. -/
def exploreStep {E : Type} [Inhabited E] (g : Graph E) (pred : E → Bool)
    (search : Search) (vertex : Nat) (st : GraphIterator) (v : Nat) :
    GraphIterator :=
  if st.distances.getD v 0 == U32_MAX && pred (edgeAt g vertex v) then
    GraphIterator.push search
      { st with
        distances := st.distances.set v ((st.distances.getD vertex 0 + 1) % U32_MOD)
        parents := st.parents.set v vertex }
      v
  else st

def exploreNeighbors {E : Type} [Inhabited E] (g : Graph E) (pred : E → Bool)
    (search : Search) (vertex : Nat) (st0 : GraphIterator) : GraphIterator :=
  (neighborsRow g vertex).foldl (exploreStep g pred search vertex) st0

/-- GraphIterator::next: returns none when the sink was already produced or
the frontier is empty; otherwise pops a vertex, stops at the sink or explores
its neighbors, and produces (vertex, distance, parent). -/
def GraphIterator.next {E : Type} [Inhabited E] (g : Graph E) (pred : E → Bool)
    (search : Search) (sink : Nat) (st : GraphIterator) :
    Option ((Nat × Nat × Nat) × GraphIterator) :=
  if st.sink_found then
    none
  else
    match GraphIterator.pop search st with
    | none => none
    | some (vertex, st1) =>
      if vertex == sink then
        some ((vertex, st1.distances.getD vertex 0, st1.parents.getD vertex 0),
          { st1 with sink_found := true })
      else
        let st2 := exploreNeighbors g pred search vertex st1
        some ((vertex, st2.distances.getD vertex 0, st2.parents.getD vertex 0), st2)

/-- The for loop of augmenting_path over the iterator: record each produced
vertex's parent in the node parent map and remember whether the sink was
produced.  Fueled; none is running out of fuel. -/
def drainIter {E : Type} [Inhabited E] (g : Graph E) (pred : E → Bool)
    (search : Search) (sink : Nat) :
    Nat → GraphIterator → List Nat → Bool → Option (List Nat × Bool)
  | 0, _, _, _ => none
  | fuel + 1, st, map, se =>
    match GraphIterator.next g pred search sink st with
    | none => some (map, se)
    | some ((v, _, p), st1) =>
      drainIter g pred search sink fuel st1 (map.set v p) (se || v == sink)

/-- The back-walk loop of path_from_visited: push the node, stop at the
source, otherwise follow the parent map.  none models the panic on an
out-of-range lookup as well as running out of fuel. -/
def pathLoop (source : Nat) (map : List Nat) :
    Nat → Nat → List Nat → Option (List Nat)
  | 0, _, _ => none
  | fuel + 1, node, path =>
    let path1 := path.concat node
    if node == source then
      some path1
    else
      match map.get? node with
      | none => none
      | some parent => pathLoop source map fuel parent path1

/-- path_from_visited: walk backward from the sink via parent pointers until
the source, then reverse. -/
def path_from_visited (fuel : Nat) (source sink : Nat) (map : List Nat) :
    Option (List Nat) :=
  (pathLoop source map fuel sink []).map List.reverse

/-- Admissibility predicate of the max-flow search (flow_predicate):
the edge has spare capacity. -/
def flow_predicate (e : FlowEdge) : Bool :=
  e.capacity - e.flow > 0

/-- Predicate used by the plain bfs_iter and dfs_iter walks (true_predicate). -/
def true_predicate {E : Type} (_ : E) : Bool :=
  true

/-- Fuel that always suffices to drain the iterator: each step either pops one
frontier entry or also visits new vertices, so 2n + 2 steps reach the end. -/
def iterFuel {E : Type} (g : Graph E) : Nat :=
  2 * g.n_vertexes + 2

/-- Fuel that always suffices for the parent back-walk on a tree of n vertices. -/
def pathFuel {E : Type} (g : Graph E) : Nat :=
  g.n_vertexes + 1

/-- augmenting_path: run the traversal with flow_predicate, collect the parent
map, and reconstruct the path when the sink was produced.  The outer Option is
panic or non-termination; the inner Option is the Rust return value (none is
the normal no-path outcome). -/
def augmenting_path (g : Graph FlowEdge) (source sink : Nat) (search : Search) :
    Option (Option (List Nat)) :=
  match GraphIterator.new g source search with
  | none => none
  | some st0 =>
    match drainIter g flow_predicate search sink (iterFuel g) st0
        (List.replicate g.n_vertexes USIZE_MAX) false with
    | none => none
    | some (map, sink_exists) =>
      if sink_exists then
        match path_from_visited (pathFuel g) source sink map with
        | none => none
        | some p => some (some p)
      else
        some none

/-- The snapshot loop of max_flow: the Triplet list of consecutive path pairs
with a copy of the current edge property of each. -/
def collectPathEdges (g : Graph FlowEdge) (path : List Nat) :
    List (Nat × FlowEdge × Nat) :=
  (path.zip path.tail).map (fun p => (p.1, edgeAt g p.1 p.2, p.2))

/-- The bottleneck fold of max_flow: minimum spare capacity over the snapshot,
starting from i32::MAX. -/
def bottleneck (edges : List (Nat × FlowEdge × Nat)) : Int :=
  edges.foldl (fun acc e => min (e.2.1.capacity - e.2.1.flow) acc) I32_MAX

/-- Adds d to the flow of matrix slot u -> v, leaving the capacity alone. -/
def updateFlow (m : List (List FlowEdge)) (u v : Nat) (d : Int) :
    List (List FlowEdge) :=
  m.set u ((m.getD u []).set v
    ⟨(mAt m u v).capacity, (mAt m u v).flow + d⟩)

/-- The update loop of max_flow: for every snapshot triplet (u, e, v), add the
bottleneck to flow on u -> v and subtract it on v -> u. -/
def applyUpdates (m : List (List FlowEdge)) (edges : List (Nat × FlowEdge × Nat))
    (f : Int) : List (List FlowEdge) :=
  edges.foldl (fun acc e => updateFlow (updateFlow acc e.1 e.2.2 f) e.2.2 e.1 (-f)) m

/-- One whole augmentation of max_flow along a found path: snapshot the path
edges, take the bottleneck, push it. -/
def augmentAlong (g : Graph FlowEdge) (path : List Nat) : Graph FlowEdge :=
  let es := collectPathEdges g path
  { g with edges := applyUpdates g.edges es (bottleneck es) }

/-- The final accumulation of max_flow in the no-path branch: sum of flow over
the source's adjacency row, skipping capacity-0 slots. -/
def total_from_source (g : Graph FlowEdge) (source : Nat) : Int :=
  (neighborsRow g source).foldl
    (fun acc v =>
      if (edgeAt g source v).capacity ≠ 0 then acc + (edgeAt g source v).flow
      else acc)
    0

/-- max_flow: repeatedly find an augmenting path and push its bottleneck; when
no path remains, return the flow out of the source together with the final
graph.  Fueled: none is non-termination (or a panic inside a search). -/
def max_flow : Nat → Graph FlowEdge → Nat → Nat → Search →
    Option (Int × Graph FlowEdge)
  | 0, _, _, _, _ => none
  | fuel + 1, g, source, sink, search =>
    match augmenting_path g source sink search with
    | none => none
    | some none => some (total_from_source g source, g)
    | some (some path) => max_flow fuel (augmentAlong g path) source sink search

/-- Ghost-instrumented max_flow that additionally records the bottleneck value
of every augmentation, modelling the running accumulator the specification
describes. -/
def max_flow_trace : Nat → Graph FlowEdge → Nat → Nat → Search →
    Option (Int × Graph FlowEdge × List Int)
  | 0, _, _, _, _ => none
  | fuel + 1, g, source, sink, search =>
    match augmenting_path g source sink search with
    | none => none
    | some none => some (total_from_source g source, g, [])
    | some (some path) =>
      match max_flow_trace fuel (augmentAlong g path) source sink search with
      | none => none
      | some (v, g1, bs) =>
        some (v, g1, bottleneck (collectPathEdges g path) :: bs)

/-- Ghost observer of the max_flow loop: the graph state after exactly k
augmentations, if the loop runs at least that long. -/
def max_flow_steps : Nat → Graph FlowEdge → Nat → Nat → Search →
    Option (Graph FlowEdge)
  | 0, g, _, _, _ => some g
  | k + 1, g, source, sink, search =>
    match augmenting_path g source sink search with
    | none => none
    | some none => none
    | some (some path) => max_flow_steps k (augmentAlong g path) source sink search

/-- Well-formedness of a raw matrix: n rows of n entries each. -/
def MShape {E : Type} (n : Nat) (m : List (List E)) : Prop :=
  m.length = n ∧ ∀ row ∈ m, row.length = n

/-- Sum of flow out of w over all matrix slots of row w. -/
def rowSum (m : List (List FlowEdge)) (n w : Nat) : Int :=
  ∑ u ∈ Finset.range n, (mAt m w u).flow

/-- Sum of flow into w over all matrix slots of column w. -/
def colSum (m : List (List FlowEdge)) (n w : Nat) : Int :=
  ∑ u ∈ Finset.range n, (mAt m u w).flow

/-- Sum of capacities on the source's row. -/
def sumCapOut (g : Graph FlowEdge) (source : Nat) : Int :=
  ∑ v ∈ Finset.range g.n_vertexes, (edgeAt g source v).capacity

/-- Capacity of the cut determined by a vertex set S: total capacity on slots
leaving S. -/
def cutCap (g : Graph FlowEdge) (S : Finset Nat) : Int :=
  ∑ u ∈ S, ∑ v ∈ Finset.range g.n_vertexes \ S, (edgeAt g u v).capacity

/-- Static well-formedness of a flow graph, as produced by Graph::new from a
duplicate-free edge list extended by create_residual_edges: square matrix,
in-range symmetric adjacency, non-negative capacities that live on listed
edges, and capacity 0 wherever an adjacency row repeats a destination. -/
structure GraphWF (g : Graph FlowEdge) : Prop where
  n_small : g.n_vertexes < U32_MAX
  shape : MShape g.n_vertexes g.edges
  nb_lt : ∀ u, ∀ v ∈ neighborsRow g u, v < g.n_vertexes
  nb_sym : ∀ u v, v ∈ neighborsRow g u → u ∈ neighborsRow g v
  cap_nonneg : ∀ u v, 0 ≤ (edgeAt g u v).capacity
  cap_edge : ∀ u v, (edgeAt g u v).capacity ≠ 0 → v ∈ neighborsRow g u
  count_cap : ∀ u v, 2 ≤ (neighborsRow g u).count v → (edgeAt g u v).capacity = 0

/-- Dynamic flow invariant maintained by the max-flow loop: antisymmetric
flows that respect capacities, never enter the source, live only on listed
edges, and are conserved away from source and sink. -/
structure FlowInv (g : Graph FlowEdge) (source sink : Nat) : Prop where
  antisym : ∀ u v, (edgeAt g u v).flow = -(edgeAt g v u).flow
  cap_le : ∀ u v, (edgeAt g u v).flow ≤ (edgeAt g u v).capacity
  src_nonneg : ∀ v, 0 ≤ (edgeAt g source v).flow
  support : ∀ u v, (edgeAt g u v).flow ≠ 0 → v ∈ neighborsRow g u
  conserve : ∀ w, w < g.n_vertexes → w ≠ source → w ≠ sink →
    rowSum g.edges g.n_vertexes w = 0

/-- The frontier the selected search mode actually uses. -/
def frontier (search : Search) (st : GraphIterator) : List Nat :=
  match search with
  | .Bfs => st.queue
  | .Dfs => st.stack

/-- Recorded distance of a vertex (u32::MAX when unvisited). -/
def dOf (st : GraphIterator) (v : Nat) : Nat :=
  st.distances.getD v U32_MAX

/-- Recorded parent of a vertex (usize::MAX when none). -/
def pOf (st : GraphIterator) (v : Nat) : Nat :=
  st.parents.getD v USIZE_MAX

/-- A vertex counts as visited once its distance was set. -/
def visitedV (st : GraphIterator) (v : Nat) : Prop :=
  dOf st v ≠ U32_MAX

/-- A vertex is popped when it was visited and has left the frontier. -/
def poppedV (search : Search) (st : GraphIterator) (v : Nat) : Prop :=
  visitedV st v ∧ v ∉ frontier search st

/-- Number of visited vertices. -/
def visitedCard (n : Nat) (st : GraphIterator) : Nat :=
  ((Finset.range n).filter (fun v => dOf st v ≠ U32_MAX)).card

/-- Termination measure of the traversal: unvisited vertices weigh two,
frontier entries one; every productive step strictly decreases it. -/
def iterMeasure (n : Nat) (search : Search) (st : GraphIterator) : Nat :=
  2 * (n - visitedCard n st) + (frontier search st).length

/-- Inductive invariant of the traversal engine's state. -/
structure IterInv {E : Type} [Inhabited E] (g : Graph E) (pred : E → Bool)
    (search : Search) (source : Nat) (st : GraphIterator) : Prop where
  n_small : g.n_vertexes < U32_MAX
  nb_lt : ∀ u, ∀ v ∈ neighborsRow g u, v < g.n_vertexes
  len_d : st.distances.length = g.n_vertexes
  len_p : st.parents.length = g.n_vertexes
  src_lt : source < g.n_vertexes
  src_vis : dOf st source = 0
  src_parent : pOf st source = USIZE_MAX
  fr_lt : ∀ v ∈ frontier search st, v < g.n_vertexes
  fr_vis : ∀ v ∈ frontier search st, visitedV st v
  fr_nodup : (frontier search st).Nodup
  dist_small : ∀ v, v < g.n_vertexes → visitedV st v →
    dOf st v + 1 ≤ visitedCard g.n_vertexes st
  parent_spec : ∀ v, v < g.n_vertexes → v ≠ source → visitedV st v →
    pOf st v < g.n_vertexes ∧ visitedV st (pOf st v) ∧
    dOf st v = dOf st (pOf st v) + 1 ∧
    v ∈ neighborsRow g (pOf st v) ∧ pred (edgeAt g (pOf st v) v) = true ∧
    poppedV search st (pOf st v)

/-- A well-formed search path: it runs from s to t along pairwise-distinct
in-range vertices, stepping only along admissible graph edges. -/
def GoodPath {E : Type} [Inhabited E] (g : Graph E) (pred : E → Bool)
    (s t : Nat) (p : List Nat) : Prop :=
  p.head? = some s ∧ p.getLast? = some t ∧ p.Nodup ∧
  (∀ u ∈ p, u < g.n_vertexes) ∧
  List.Chain' (fun a b => b ∈ neighborsRow g a ∧ pred (edgeAt g a b) = true) p

/-- A set of vertices witnessing that no admissible path reaches t: it holds
s, misses t, and no admissible edge leaves it. -/
def ClosedVisited {E : Type} [Inhabited E] (g : Graph E) (pred : E → Bool)
    (s t : Nat) (S : Finset Nat) : Prop :=
  s ∈ S ∧ t ∉ S ∧ (∀ u ∈ S, u < g.n_vertexes) ∧
  ∀ u ∈ S, ∀ v ∈ neighborsRow g u, pred (edgeAt g u v) = true → v ∈ S

/-- A popped vertex is fully explored: all its admissible neighbors are
visited. -/
def exploredAt {E : Type} [Inhabited E] (g : Graph E) (pred : E → Bool)
    (st : GraphIterator) (u : Nat) : Prop :=
  ∀ v ∈ neighborsRow g u, pred (edgeAt g u v) = true → visitedV st v

/-- Invariant of the parent-map accumulation loop of augmenting_path. -/
structure DrainInv {E : Type} [Inhabited E] (g : Graph E) (pred : E → Bool)
    (search : Search) (source sink : Nat) (st : GraphIterator)
    (map : List Nat) (se : Bool) : Prop where
  inv : IterInv g pred search source st
  explored : st.sink_found = false → ∀ u, u < g.n_vertexes →
    poppedV search st u → exploredAt g pred st u
  map_len : map.length = g.n_vertexes
  map_popped : ∀ v, v < g.n_vertexes → poppedV search st v →
    map.getD v USIZE_MAX = pOf st v
  map_unpopped : ∀ v, v < g.n_vertexes → ¬ poppedV search st v →
    map.getD v USIZE_MAX = USIZE_MAX
  sf_eq : st.sink_found = se
  se_popped : se = true → sink < g.n_vertexes ∧ poppedV search st sink
  popped_se : sink < g.n_vertexes → poppedV search st sink → se = true

theorem getD_set_self {α : Type} (l : List α) (i : Nat) (x d : α)
    (h : i < l.length) : (l.set i x).getD i d = x := by
  simp [List.getD, List.getElem?_set_self, h]

theorem getD_set_ne {α : Type} (l : List α) (i j : Nat) (x d : α) (h : i ≠ j) :
    (l.set i x).getD j d = l.getD j d := by
  simp [List.getD, List.getElem?_set_ne h]

theorem getD_set_oob {α : Type} (l : List α) (i j : Nat) (x d : α)
    (h : l.length ≤ i) : (l.set i x).getD j d = l.getD j d := by
  rw [List.set_eq_of_length_le h]

theorem getD_replicate_lt {α : Type} (n i : Nat) (x d : α) (h : i < n) :
    (List.replicate n x).getD i d = x := by
  simp [List.getD, List.getElem?_replicate, h]

theorem getD_replicate_any {α : Type} (n i : Nat) (x : α) :
    (List.replicate n x).getD i x = x := by
  by_cases h : i < n
  · exact getD_replicate_lt n i x x h
  · exact List.getD_eq_default _ _ (by simpa [Nat.not_lt] using h)

theorem getD_mem_of_lt {α : Type} (l : List α) (i : Nat) (d : α)
    (h : i < l.length) : l.getD i d ∈ l := by
  rw [List.getD_eq_getElem l d h]
  exact List.getElem_mem h

theorem mAt_replicate {E : Type} [Inhabited E] (n u v : Nat) :
    mAt (List.replicate n (List.replicate n (default : E))) u v = default := by
  unfold mAt
  by_cases h : u < n
  · rw [getD_replicate_lt n u _ [] h, getD_replicate_any]
  · have h1 : (List.replicate n (List.replicate n (default : E))).getD u [] = [] :=
      List.getD_eq_default _ _ (by rw [List.length_replicate]; omega)
    rw [h1]
    simp [List.getD]

theorem insertEdges_append {E : Type} (n : Nat) (a b : List (Nat × Nat × E))
    (st : List (List Nat) × List (List E) × Nat) :
    insertEdges n (a ++ b) st =
      match insertEdges n a st with
      | none => none
      | some st1 => insertEdges n b st1 := by
  induction a generalizing st with
  | nil => simp [insertEdges]
  | cons e rest ih =>
    rw [List.cons_append, insertEdges, insertEdges]
    by_cases h : (e.1 < n && e.2.1 < n) = true
    · rw [if_pos h, if_pos h, ih]
    · rw [if_neg h, if_neg h]

theorem insertEdges_bounds {E : Type} {n : Nat} {el : List (Nat × Nat × E)}
    {st st' : List (List Nat) × List (List E) × Nat}
    (h : insertEdges n el st = some st') :
    ∀ e ∈ el, e.1 < n ∧ e.2.1 < n := by
  induction el generalizing st with
  | nil => intro e he; cases he
  | cons e rest ih =>
    intro f hf
    rw [insertEdges] at h
    by_cases hb : (e.1 < n && e.2.1 < n) = true
    · rw [if_pos hb] at h
      rcases List.mem_cons.mp hf with hf | hf
      · subst hf; simpa using hb
      · exact ih h f hf
    · rw [if_neg hb] at h; cases h

theorem insertEdges_mshape {E : Type} {n : Nat} {el : List (Nat × Nat × E)}
    {st st' : List (List Nat) × List (List E) × Nat}
    (h : insertEdges n el st = some st') (hs : MShape n st.2.1) :
    MShape n st'.2.1 := by
  induction el generalizing st with
  | nil => rw [insertEdges] at h; cases h; exact hs
  | cons e rest ih =>
    rw [insertEdges] at h
    by_cases hb : (e.1 < n && e.2.1 < n) = true
    · rw [if_pos hb] at h
      refine ih h ?_
      obtain ⟨h1, h2⟩ := hs
      constructor
      · simpa using h1
      · intro row hrow
        rcases List.mem_or_eq_of_mem_set hrow with hmem | heq
        · exact h2 row hmem
        · subst heq
          rw [List.length_set]
          by_cases he : e.1 < st.2.1.length
          · exact h2 _ (getD_mem_of_lt _ _ _ he)
          · have hb1 : e.1 < n ∧ e.2.1 < n := by simpa using hb
            omega
    · rw [if_neg hb] at h; cases h

theorem insertEdges_nbLength {E : Type} {n : Nat} {el : List (Nat × Nat × E)}
    {st st' : List (List Nat) × List (List E) × Nat}
    (h : insertEdges n el st = some st') : st'.1.length = st.1.length := by
  induction el generalizing st with
  | nil => rw [insertEdges] at h; cases h; rfl
  | cons e rest ih =>
    rw [insertEdges] at h
    by_cases hb : e.1 < n && e.2.1 < n
    · rw [if_pos hb] at h
      rw [ih h]; simp
    · rw [if_neg hb] at h; cases h

theorem insertEdges_neighbors {E : Type} {n : Nat} {el : List (Nat × Nat × E)}
    {st st' : List (List Nat) × List (List E) × Nat}
    (h : insertEdges n el st = some st') (hl : st.1.length = n) (w : Nat) :
    st'.1.getD w [] =
      st.1.getD w [] ++ (el.filter (fun e => e.1 = w)).map (fun e => e.2.1) := by
  induction el generalizing st with
  | nil => rw [insertEdges] at h; cases h; simp
  | cons e rest ih =>
    rw [insertEdges] at h
    by_cases hb : e.1 < n && e.2.1 < n
    · rw [if_pos hb] at h
      have hlen : (st.1.set e.1 ((st.1.getD e.1 []).concat e.2.1)).length = n := by
        simpa using hl
      have hrec := ih h hlen
      have hb1 : e.1 < n ∧ e.2.1 < n := by simpa using hb
      by_cases hw : e.1 = w
      · subst hw
        have hlt : e.1 < st.1.length := by omega
        rw [hrec, getD_set_self _ _ _ _ hlt]
        simp [List.concat_eq_append, List.filter_cons]
      · rw [hrec, getD_set_ne _ _ _ _ _ hw]
        simp [List.filter_cons, hw]
    · rw [if_neg hb] at h; cases h

theorem insertEdges_noWrite {E : Type} [Inhabited E] {n : Nat}
    {el : List (Nat × Nat × E)} {st st' : List (List Nat) × List (List E) × Nat}
    {u v : Nat} (h : insertEdges n el st = some st')
    (hw : ∀ e ∈ el, ¬(e.1 = u ∧ e.2.1 = v)) :
    mAt st'.2.1 u v = mAt st.2.1 u v := by
  induction el generalizing st with
  | nil => rw [insertEdges] at h; cases h; rfl
  | cons e rest ih =>
    rw [insertEdges] at h
    by_cases hb : e.1 < n && e.2.1 < n
    · rw [if_pos hb] at h
      rw [ih h (fun f hf => hw f (List.mem_cons_of_mem _ hf))]
      have hne : ¬(e.1 = u ∧ e.2.1 = v) := hw e (List.mem_cons_self _ _)
      show mAt (st.2.1.set e.1 ((st.2.1.getD e.1 []).set e.2.1 e.2.2)) u v = _
      unfold mAt
      by_cases h1 : e.1 = u
      · subst h1
        have h2 : e.2.1 ≠ v := fun hv => hne ⟨rfl, hv⟩
        by_cases h3 : e.1 < st.2.1.length
        · rw [getD_set_self _ _ _ _ h3, getD_set_ne _ _ _ _ _ h2]
        · rw [getD_set_oob _ _ _ _ _ (by omega)]
      · rw [getD_set_ne _ _ _ _ _ h1]
    · rw [if_neg hb] at h; cases h

theorem insertEdges_constWrite {E : Type} [Inhabited E] {n : Nat}
    {el : List (Nat × Nat × E)} {st st' : List (List Nat) × List (List E) × Nat}
    {u v : Nat} {c : E} (h : insertEdges n el st = some st')
    (hs : MShape n st.2.1)
    (hex : ∃ e ∈ el, e.1 = u ∧ e.2.1 = v)
    (hall : ∀ e ∈ el, e.1 = u ∧ e.2.1 = v → e.2.2 = c) :
    mAt st'.2.1 u v = c := by
  induction el generalizing st with
  | nil => obtain ⟨e, he, _⟩ := hex; cases he
  | cons e rest ih =>
    rw [insertEdges] at h
    by_cases hb : e.1 < n && e.2.1 < n
    · rw [if_pos hb] at h
      have hb1 : e.1 < n ∧ e.2.1 < n := by simpa using hb
      have hb1 : e.1 < n ∧ e.2.1 < n := by simpa using hb
      have hs1 : MShape n (st.2.1.set e.1 ((st.2.1.getD e.1 []).set e.2.1 e.2.2)) := by
        obtain ⟨h1, h2⟩ := hs
        refine ⟨by simpa using h1, ?_⟩
        intro row hrow
        rcases List.mem_or_eq_of_mem_set hrow with hmem | heq
        · exact h2 row hmem
        · subst heq
          rw [List.length_set]
          exact h2 _ (getD_mem_of_lt _ _ _ (by omega))
      by_cases hrest : ∃ f ∈ rest, f.1 = u ∧ f.2.1 = v
      · exact ih h hs1 hrest (fun f hf => hall f (List.mem_cons_of_mem _ hf))
      · have hnw : ∀ f ∈ rest, ¬(f.1 = u ∧ f.2.1 = v) := by
          intro f hf hfe; exact hrest ⟨f, hf, hfe⟩
        rw [insertEdges_noWrite h hnw]
        obtain ⟨f, hf, hfe⟩ := hex
        have hfeq : e.1 = u ∧ e.2.1 = v := by
          rcases List.mem_cons.mp hf with hf | hf
          · subst hf; exact hfe
          · exact absurd hfe (hnw f hf)
        have hval : e.2.2 = c := hall e (List.mem_cons_self _ _) hfeq
        have hrow : e.1 < st.2.1.length := by
          have := hs.1; omega
        have hcol : e.2.1 < (st.2.1.getD e.1 []).length := by
          have := hs.2 _ (getD_mem_of_lt st.2.1 e.1 [] hrow)
          omega
        obtain ⟨h1, h2⟩ := hfeq
        subst h1; subst h2; subst hval
        unfold mAt
        rw [getD_set_self _ _ _ _ hrow, getD_set_self _ _ _ _ hcol]
    · rw [if_neg hb] at h; cases h

theorem graphNew_parts {E : Type} [Inhabited E] {vl : List Nat}
    {el : List (Nat × Nat × E)} {g : Graph E}
    (h : Graph.new vl el = some g) :
    g.n_vertexes = vl.length ∧
    insertEdges vl.length el
      (List.replicate vl.length [],
       List.replicate vl.length (List.replicate vl.length default), 0) =
      some (g.neighbors, g.edges, g.n_edges) := by
  unfold Graph.new at h
  by_cases hv : vertexesInOrder vl 0
  · rw [if_pos hv] at h
    rcases hm : insertEdges vl.length el
        (List.replicate vl.length [],
         List.replicate vl.length (List.replicate vl.length default), 0) with _ | st
    · rw [hm] at h; cases h
    · rw [hm] at h
      cases h
      exact ⟨rfl, rfl⟩
  · rw [if_neg hv] at h; cases h

theorem graphNew_neighbors {E : Type} [Inhabited E] {vl : List Nat}
    {el : List (Nat × Nat × E)} {g : Graph E}
    (h : Graph.new vl el = some g) (w : Nat) :
    neighborsRow g w = (el.filter (fun e => e.1 = w)).map (fun e => e.2.1) := by
  obtain ⟨hn, hins⟩ := graphNew_parts h
  have := insertEdges_neighbors hins (by simp) w
  simpa [neighborsRow] using this

theorem graphNew_bounds {E : Type} [Inhabited E] {vl : List Nat}
    {el : List (Nat × Nat × E)} {g : Graph E}
    (h : Graph.new vl el = some g) :
    ∀ e ∈ el, e.1 < g.n_vertexes ∧ e.2.1 < g.n_vertexes := by
  obtain ⟨hn, hins⟩ := graphNew_parts h
  rw [hn]
  exact insertEdges_bounds hins

theorem graphNew_mshape {E : Type} [Inhabited E] {vl : List Nat}
    {el : List (Nat × Nat × E)} {g : Graph E}
    (h : Graph.new vl el = some g) : MShape g.n_vertexes g.edges := by
  obtain ⟨hn, hins⟩ := graphNew_parts h
  rw [hn]
  refine insertEdges_mshape hins ⟨by simp, ?_⟩
  intro row hrow
  rw [List.eq_of_mem_replicate hrow]
  simp

theorem graphNew_nbLength {E : Type} [Inhabited E] {vl : List Nat}
    {el : List (Nat × Nat × E)} {g : Graph E}
    (h : Graph.new vl el = some g) : g.neighbors.length = g.n_vertexes := by
  obtain ⟨hn, hins⟩ := graphNew_parts h
  rw [hn]
  have := insertEdges_nbLength hins
  simpa using this

theorem graphNew_noWrite {E : Type} [Inhabited E] {vl : List Nat}
    {el : List (Nat × Nat × E)} {g : Graph E} {u v : Nat}
    (h : Graph.new vl el = some g)
    (hw : ∀ e ∈ el, ¬(e.1 = u ∧ e.2.1 = v)) :
    edgeAt g u v = default := by
  obtain ⟨hn, hins⟩ := graphNew_parts h
  have := insertEdges_noWrite hins hw
  unfold edgeAt
  rw [this]
  exact mAt_replicate _ _ _

theorem replicate_matrix_mshape {E : Type} [Inhabited E] (n : Nat) :
    MShape n (List.replicate n (List.replicate n (default : E))) := by
  refine ⟨by simp, ?_⟩
  intro row hrow
  rw [List.eq_of_mem_replicate hrow]
  simp

/-- Claim C1 is refuted on the input list with edges 0 to 1 of capacity 2 and
1 to 0 of capacity 3: although each direction is the explicit reverse of the
other, the builder still synthesizes both capacity-0 residuals, and the
constructed matrix entry for 1 to 0 carries capacity 0, not the explicit
capacity 3. -/
theorem C1_counterexample :
    create_residual_edges [(0, 1, ⟨2, 0⟩), (1, 0, ⟨3, 0⟩)] =
      [(0, 1, ⟨2, 0⟩), (1, 0, ⟨3, 0⟩), (1, 0, FlowEdge.zero), (0, 1, FlowEdge.zero)] ∧
    (Graph.new [0, 1] (create_residual_edges [(0, 1, ⟨2, 0⟩), (1, 0, ⟨3, 0⟩)])).map
        (fun g => (edgeAt g 1 0).capacity) = some 0 ∧
    some (0 : Int) ≠ some (3 : Int) := by
  refine ⟨rfl, by decide, by decide⟩

/-- Claim C1 amended: for every input edge (u, v, c), create_residual_edges
unconditionally appends a reverse edge (v, u) with capacity 0 (no skipping:
the output always has twice the input length), and because residuals follow
all explicit edges and Graph::new is last-write-wins, the constructed graph's
matrix entry for (v, u) is the default capacity-0 property even when v to u
was an explicit input edge. -/
theorem C1_amended {vl : List Nat} {el : List (Nat × Nat × FlowEdge)}
    {g : Graph FlowEdge} {u v : Nat} {c : FlowEdge}
    (hg : Graph.new vl (create_residual_edges el) = some g)
    (he : (u, v, c) ∈ el) :
    (v, u, FlowEdge.zero) ∈ create_residual_edges el ∧
    (create_residual_edges el).length = 2 * el.length ∧
    edgeAt g v u = FlowEdge.zero := by
  refine ⟨?_, ?_, ?_⟩
  · unfold create_residual_edges
    exact List.mem_append_right _ (List.mem_map.mpr ⟨(u, v, c), he, rfl⟩)
  · unfold create_residual_edges
    simp [Nat.two_mul]
  · obtain ⟨hn, hins⟩ := graphNew_parts hg
    unfold create_residual_edges at hins
    rw [insertEdges_append] at hins
    rcases h1 : insertEdges vl.length el
        (List.replicate vl.length [],
         List.replicate vl.length (List.replicate vl.length default), 0) with _ | st1
    · rw [h1] at hins; cases hins
    · rw [h1] at hins
      have hsh : MShape vl.length st1.2.1 :=
        insertEdges_mshape h1 (replicate_matrix_mshape _)
      have hconst := insertEdges_constWrite (u := v) (v := u) (c := FlowEdge.zero)
        hins hsh
        ⟨(v, u, FlowEdge.zero), List.mem_map.mpr ⟨(u, v, c), he, rfl⟩, rfl, rfl⟩
        (by
          intro f hf _
          obtain ⟨e1, _, hfe⟩ := List.mem_map.mp hf
          rw [← hfe])
      exact hconst

/-- Witness for C1 amended at the concrete input of the counterexample. -/
theorem C1_amended_witness :
    ((0, 1, ⟨2, 0⟩) : Nat × Nat × FlowEdge) ∈
      ([(0, 1, ⟨2, 0⟩), (1, 0, ⟨3, 0⟩)] : List (Nat × Nat × FlowEdge)) ∧
    edgeAt (⟨[[FlowEdge.zero, FlowEdge.zero], [FlowEdge.zero, FlowEdge.zero]],
      [[1, 1], [0, 0]], 4, 2⟩ : Graph FlowEdge) 1 0 = FlowEdge.zero :=
  ⟨by decide,
    (@C1_amended [0, 1] [(0, 1, ⟨2, 0⟩), (1, 0, ⟨3, 0⟩)]
      ⟨[[FlowEdge.zero, FlowEdge.zero], [FlowEdge.zero, FlowEdge.zero]],
        [[1, 1], [0, 0]], 4, 2⟩ 0 1 ⟨2, 0⟩ (by decide) (by decide)).2.2⟩

/-- Claim C7 is refuted on the graph built from the single edge 0 to 1 with
capacity 1 plus its residual: the residual puts 0 into neighbors[1], yet the
matrix entry 1 to 0 is the default property, so row 1 has one neighbor but
zero non-default entries. -/
theorem C7_counterexample :
    (Graph.new [0, 1] (create_residual_edges [(0, 1, (⟨1, 0⟩ : FlowEdge))])).map
        (fun g => (neighborsRow g 1,
          ((g.edges.getD 1 []).filter (fun e => e != default)).length)) =
      some ([0], 0) := by decide

/-- Claim C7 amended: in every successfully constructed graph, neighbors[w] is
exactly the list of destinations of the input edges with source w, in input
order (so membership tracks the input edge list, not non-default matrix
entries, which can disagree when an inserted edge carries the default
property, e.g. a synthesized residual), and every id in neighbors[w] is less
than the number of vertexes. -/
theorem C7_amended {E : Type} [Inhabited E] {vl : List Nat}
    {el : List (Nat × Nat × E)} {g : Graph E}
    (hg : Graph.new vl el = some g) :
    (∀ w, neighborsRow g w = (el.filter (fun e => e.1 = w)).map (fun e => e.2.1)) ∧
    (∀ w, ∀ x ∈ neighborsRow g w, x < g.n_vertexes) := by
  refine ⟨fun w => graphNew_neighbors hg w, ?_⟩
  intro w x hx
  rw [graphNew_neighbors hg w] at hx
  obtain ⟨e, he, hxe⟩ := List.mem_map.mp hx
  rw [← hxe]
  exact (graphNew_bounds hg e (List.mem_of_mem_filter he)).2

/-- Witness for C7 amended at the concrete graph of the counterexample. -/
theorem C7_amended_witness :
    neighborsRow (⟨[[FlowEdge.zero, ⟨1, 0⟩], [FlowEdge.zero, FlowEdge.zero]],
        [[1], [0]], 2, 2⟩ : Graph FlowEdge) 1 =
      ((([(0, 1, ⟨1, 0⟩)] ++ [(1, 0, FlowEdge.zero)] :
          List (Nat × Nat × FlowEdge))).filter
        (fun e => e.1 = 1)).map (fun e => e.2.1) :=
  (@C7_amended FlowEdge _ [0, 1] ([(0, 1, ⟨1, 0⟩)] ++ [(1, 0, FlowEdge.zero)])
    ⟨[[FlowEdge.zero, ⟨1, 0⟩], [FlowEdge.zero, FlowEdge.zero]],
      [[1], [0]], 2, 2⟩ (by decide)).1 1

/-- Claim C9 is refuted on its own fixture: on the 7-vertex diamond with the
listed unit capacities, built with residual edges, max_flow from 0 to 4
returns total flow 2, not 4 (the source's outgoing capacity is only 2). -/
theorem C9_counterexample :
    (Graph.new [0, 1, 2, 3, 4, 5, 6] (create_residual_edges
      [(0, 1, ⟨1, 0⟩), (0, 2, ⟨1, 0⟩), (1, 3, ⟨1, 0⟩), (1, 5, ⟨1, 0⟩),
       (2, 5, ⟨1, 0⟩), (2, 6, ⟨1, 0⟩), (3, 4, ⟨1, 0⟩), (5, 6, ⟨1, 0⟩),
       (6, 4, ⟨2, 0⟩)])).bind
      (fun g => (max_flow 20 g 0 4 .Bfs).map Prod.fst) = some 2 ∧
    some (2 : Int) ≠ some (4 : Int) := by
  refine ⟨by decide, by decide⟩

/-- Claim C9 amended: on the 7-vertex diamond network with unit capacities
0 to 1 (1), 0 to 2 (1), 1 to 3 (1), 1 to 5 (1), 2 to 5 (1), 2 to 6 (1),
3 to 4 (1), 5 to 6 (1), 6 to 4 (2), built with residual edges, max_flow from
source 0 to sink 4 returns total flow 2, in breadth-first and in depth-first
mode alike. -/
theorem C9_amended :
    (Graph.new [0, 1, 2, 3, 4, 5, 6] (create_residual_edges
      [(0, 1, ⟨1, 0⟩), (0, 2, ⟨1, 0⟩), (1, 3, ⟨1, 0⟩), (1, 5, ⟨1, 0⟩),
       (2, 5, ⟨1, 0⟩), (2, 6, ⟨1, 0⟩), (3, 4, ⟨1, 0⟩), (5, 6, ⟨1, 0⟩),
       (6, 4, ⟨2, 0⟩)])).bind
      (fun g => (max_flow 20 g 0 4 .Bfs).map Prod.fst) = some 2 ∧
    (Graph.new [0, 1, 2, 3, 4, 5, 6] (create_residual_edges
      [(0, 1, ⟨1, 0⟩), (0, 2, ⟨1, 0⟩), (1, 3, ⟨1, 0⟩), (1, 5, ⟨1, 0⟩),
       (2, 5, ⟨1, 0⟩), (2, 6, ⟨1, 0⟩), (3, 4, ⟨1, 0⟩), (5, 6, ⟨1, 0⟩),
       (6, 4, ⟨2, 0⟩)])).bind
      (fun g => (max_flow 20 g 0 4 .Dfs).map Prod.fst) = some 2 := by
  refine ⟨by decide, by decide⟩

theorem pop_spec {search : Search} {st st1 : GraphIterator} {v : Nat}
    (h : GraphIterator.pop search st = some (v, st1)) :
    st1.distances = st.distances ∧ st1.parents = st.parents ∧
    st1.sink_found = st.sink_found := by
  cases search with
  | Bfs =>
    cases hq : st.queue with
    | nil => rw [GraphIterator.pop, hq] at h; cases h
    | cons a rest =>
      rw [GraphIterator.pop, hq] at h
      cases h
      exact ⟨rfl, rfl, rfl⟩
  | Dfs =>
    cases hq : st.stack with
    | nil => rw [GraphIterator.pop, hq] at h; cases h
    | cons a rest =>
      rw [GraphIterator.pop, hq] at h
      cases h
      exact ⟨rfl, rfl, rfl⟩

/-- Claim C8: when the traversal engine pops a vertex equal to the sink, the
item is still produced with its recorded distance and parent, the sink's
outgoing edges are not explored (distances and parents are unchanged), and no
further items are produced; when source equals sink the iterator yields
exactly one item (source, 0, sentinel parent) without touching any neighbor. -/
theorem C8_sink_semantics {E : Type} [Inhabited E] (g : Graph E) (pred : E → Bool)
    (search : Search) (sink : Nat) (st st1 : GraphIterator)
    (hsf : st.sink_found = false)
    (hpop : GraphIterator.pop search st = some (sink, st1)) :
    GraphIterator.next g pred search sink st =
      some ((sink, st1.distances.getD sink 0, st1.parents.getD sink 0),
        { st1 with sink_found := true }) ∧
    st1.distances = st.distances ∧
    st1.parents = st.parents ∧
    GraphIterator.next g pred search sink { st1 with sink_found := true } = none ∧
    (∀ (s : Nat) (st0 : GraphIterator), GraphIterator.new g s search = some st0 →
      GraphIterator.next g pred search s st0 =
        some ((s, 0, USIZE_MAX),
          ⟨[], [], (List.replicate g.n_vertexes U32_MAX).set s 0,
            List.replicate g.n_vertexes USIZE_MAX, true⟩) ∧
      GraphIterator.next g pred search s
        (⟨[], [], (List.replicate g.n_vertexes U32_MAX).set s 0,
          List.replicate g.n_vertexes USIZE_MAX, true⟩ : GraphIterator) = none) := by
  obtain ⟨hd, hp, hs⟩ := pop_spec hpop
  refine ⟨?_, hd, hp, ?_, ?_⟩
  · rw [GraphIterator.next, hsf]
    simp only [Bool.false_eq_true, if_false, hpop]
    rw [if_pos (by simp)]
  · rw [GraphIterator.next]
    simp
  · intro s st0 hnew
    rw [GraphIterator.new.eq_def] at hnew
    by_cases hlt : s < g.n_vertexes
    · rw [if_pos hlt] at hnew
      cases hnew
      constructor
      · cases search with
        | Bfs =>
          rw [GraphIterator.next]
          simp only [Bool.false_eq_true, if_false]
          rw [GraphIterator.pop]
          simp only []
          rw [if_pos (by simp)]
          have h0 : ((List.replicate g.n_vertexes U32_MAX).set s 0).getD s 0 = 0 :=
            getD_set_self _ _ _ _ (by simpa using hlt)
          have h1 : (List.replicate g.n_vertexes USIZE_MAX).getD s 0 = USIZE_MAX :=
            getD_replicate_lt _ _ _ _ hlt
          rw [h0, h1]
        | Dfs =>
          rw [GraphIterator.next]
          simp only [Bool.false_eq_true, if_false]
          rw [GraphIterator.pop]
          simp only []
          rw [if_pos (by simp)]
          have h0 : ((List.replicate g.n_vertexes U32_MAX).set s 0).getD s 0 = 0 :=
            getD_set_self _ _ _ _ (by simpa using hlt)
          have h1 : (List.replicate g.n_vertexes USIZE_MAX).getD s 0 = USIZE_MAX :=
            getD_replicate_lt _ _ _ _ hlt
          rw [h0, h1]
      · rw [GraphIterator.next]
        simp
    · rw [if_neg hlt] at hnew; cases hnew

/-- Witness for C8 at a concrete graph and iterator state: popping the sink
vertex 1 still produces the item (1, distance 1, parent 0) and stops. -/
theorem C8_sink_semantics_witness :
    GraphIterator.next (⟨[[FlowEdge.zero, ⟨1, 0⟩], [FlowEdge.zero, FlowEdge.zero]],
        [[1], [0]], 2, 2⟩ : Graph FlowEdge) flow_predicate .Bfs 1
      ⟨[1], [], [0, 1], [USIZE_MAX, 0], false⟩ =
      some ((1, 1, 0), ⟨[], [], [0, 1], [USIZE_MAX, 0], true⟩) :=
  (C8_sink_semantics (⟨[[FlowEdge.zero, ⟨1, 0⟩], [FlowEdge.zero, FlowEdge.zero]],
      [[1], [0]], 2, 2⟩ : Graph FlowEdge) flow_predicate .Bfs 1
    ⟨[1], [], [0, 1], [USIZE_MAX, 0], false⟩
    ⟨[], [], [0, 1], [USIZE_MAX, 0], false⟩ (by decide) (by decide)).1

theorem updateFlow_capacity (m : List (List FlowEdge)) (a b : Nat) (d : Int)
    (u w : Nat) :
    (mAt (updateFlow m a b d) u w).capacity = (mAt m u w).capacity := by
  unfold updateFlow
  by_cases ha : a < m.length
  · by_cases hu : a = u
    · subst hu
      unfold mAt
      rw [getD_set_self _ _ _ _ ha]
      by_cases hw : b = w
      · subst hw
        by_cases hb : b < (m.getD a []).length
        · rw [getD_set_self _ _ _ _ hb]
        · rw [List.set_eq_of_length_le (by omega)]
      · rw [getD_set_ne _ _ _ _ _ hw]
    · unfold mAt
      rw [getD_set_ne _ _ _ _ _ hu]
  · rw [List.set_eq_of_length_le (by omega)]

theorem applyUpdates_capacity (m : List (List FlowEdge))
    (es : List (Nat × FlowEdge × Nat)) (f : Int) (u w : Nat) :
    (mAt (applyUpdates m es f) u w).capacity = (mAt m u w).capacity := by
  induction es generalizing m with
  | nil => rfl
  | cons e rest ih =>
    unfold applyUpdates at ih ⊢
    rw [List.foldl_cons, ih, updateFlow_capacity, updateFlow_capacity]

/-- Claim C10: max_flow mutates only the flow fields: whenever it returns, the
final graph has the same neighbor lists, vertex count, edge count, and the
same capacity in every matrix slot as the initial graph. -/
theorem C10_frame {fuel : Nat} {g g1 : Graph FlowEdge} {source sink : Nat}
    {search : Search} {v : Int}
    (h : max_flow fuel g source sink search = some (v, g1)) :
    g1.neighbors = g.neighbors ∧ g1.n_vertexes = g.n_vertexes ∧
    g1.n_edges = g.n_edges ∧
    ∀ u w, (edgeAt g1 u w).capacity = (edgeAt g u w).capacity := by
  induction fuel generalizing g with
  | zero => cases h
  | succ fuel ih =>
    rw [max_flow] at h
    rcases hap : augmenting_path g source sink search with _ | op
    · rw [hap] at h; cases h
    · rw [hap] at h
      cases op with
      | none =>
        cases h
        exact ⟨rfl, rfl, rfl, fun u w => rfl⟩
      | some path =>
        obtain ⟨h1, h2, h3, h4⟩ := ih h
        refine ⟨h1, h2, h3, fun u w => ?_⟩
        rw [h4 u w]
        unfold edgeAt augmentAlong
        exact applyUpdates_capacity _ _ _ _ _

/-- Witness for C10 on the two-vertex graph with one unit edge. -/
theorem C10_frame_witness :
    (⟨[[FlowEdge.zero, ⟨1, 1⟩], [⟨0, -1⟩, FlowEdge.zero]], [[1], [0]], 2, 2⟩ :
      Graph FlowEdge).neighbors =
    (⟨[[FlowEdge.zero, ⟨1, 0⟩], [FlowEdge.zero, FlowEdge.zero]], [[1], [0]], 2, 2⟩ :
      Graph FlowEdge).neighbors :=
  (@C10_frame 5
    ⟨[[FlowEdge.zero, ⟨1, 0⟩], [FlowEdge.zero, FlowEdge.zero]], [[1], [0]], 2, 2⟩
    ⟨[[FlowEdge.zero, ⟨1, 1⟩], [⟨0, -1⟩, FlowEdge.zero]], [[1], [0]], 2, 2⟩
    0 1 Search.Bfs 1 (by decide)).1

/-- Claim C2 is refuted after max_flow on the graph built from the single edge
0 to 1 with capacity 1 plus its residual: the residual (1, 0) is an edge of
the graph (0 is in neighbors[1]), and its final flow is -1, violating
0 <= flow. -/
theorem C2_counterexample :
    (Graph.new [0, 1] (create_residual_edges [(0, 1, ⟨1, 0⟩)])).map
      (fun g => neighborsRow g 1) = some [0] ∧
    (Graph.new [0, 1] (create_residual_edges [(0, 1, ⟨1, 0⟩)])).bind
      (fun g => (max_flow 5 g 0 1 .Bfs).map (fun r => edgeAt r.2 1 0)) =
      some ⟨0, -1⟩ ∧
    ¬ ((0 : Int) ≤ -1) := by
  refine ⟨by decide, by decide, by decide⟩

/-- Claim C3 is refuted on a graph built with residual pairing from an edge
list that repeats the pair (0, 1): breadth-first max_flow returns 2 while
depth-first returns 1 on identical copies. -/
theorem C3_counterexample :
    (Graph.new [0, 1, 2, 3, 4] (create_residual_edges
      [(0, 1, ⟨1, 0⟩), (0, 1, ⟨1, 0⟩), (0, 2, ⟨1, 0⟩), (1, 3, ⟨1, 0⟩),
       (2, 3, ⟨1, 0⟩), (3, 4, ⟨1, 0⟩)])).bind
      (fun g => (max_flow 20 g 0 4 .Bfs).map Prod.fst) = some 2 ∧
    (Graph.new [0, 1, 2, 3, 4] (create_residual_edges
      [(0, 1, ⟨1, 0⟩), (0, 1, ⟨1, 0⟩), (0, 2, ⟨1, 0⟩), (1, 3, ⟨1, 0⟩),
       (2, 3, ⟨1, 0⟩), (3, 4, ⟨1, 0⟩)])).bind
      (fun g => (max_flow 20 g 0 4 .Dfs).map Prod.fst) = some 1 ∧
    some (2 : Int) ≠ some (1 : Int) := by
  refine ⟨by decide, by decide, by decide⟩

/-- Claim C4 is refuted when source equals sink: on the one-vertex graph with
no edges (sum of capacities out of the source is 0, all flows 0), every
iteration finds the augmenting path [0], the augmentation leaves the graph
unchanged, and max_flow does not terminate (five loop steps still return
nothing, though the claimed bound allows none). -/
theorem C4_counterexample :
    Graph.new [0] (create_residual_edges []) =
      some (⟨[[FlowEdge.zero]], [[]], 0, 1⟩ : Graph FlowEdge) ∧
    total_from_source ⟨[[FlowEdge.zero]], [[]], 0, 1⟩ 0 = 0 ∧
    augmenting_path ⟨[[FlowEdge.zero]], [[]], 0, 1⟩ 0 0 .Bfs = some (some [0]) ∧
    augmentAlong ⟨[[FlowEdge.zero]], [[]], 0, 1⟩ [0] =
      (⟨[[FlowEdge.zero]], [[]], 0, 1⟩ : Graph FlowEdge) ∧
    max_flow 5 ⟨[[FlowEdge.zero]], [[]], 0, 1⟩ 0 0 .Bfs = none := by
  refine ⟨by decide, by decide, by decide, by decide, by decide⟩

theorem getD_eq_of_lt {α : Type} (l : List α) (i : Nat) (d d' : α)
    (h : i < l.length) : l.getD i d = l.getD i d' := by
  rw [List.getD_eq_getElem l d h, List.getD_eq_getElem l d' h]

theorem visitedCard_le (n : Nat) (st : GraphIterator) : visitedCard n st ≤ n := by
  unfold visitedCard
  calc ((Finset.range n).filter (fun v => dOf st v ≠ U32_MAX)).card
      ≤ (Finset.range n).card := Finset.card_filter_le _ _
    _ = n := Finset.card_range n

theorem visitedCard_lt {n : Nat} {st : GraphIterator} {v : Nat}
    (hv : v < n) (hunvis : ¬ visitedV st v) : visitedCard n st < n := by
  unfold visitedCard
  have hsub : (Finset.range n).filter (fun w => dOf st w ≠ U32_MAX) ⊆
      (Finset.range n).erase v := by
    intro w hw
    rw [Finset.mem_filter] at hw
    rw [Finset.mem_erase]
    refine ⟨?_, hw.1⟩
    intro hwv
    subst hwv
    exact hunvis hw.2
  calc ((Finset.range n).filter (fun w => dOf st w ≠ U32_MAX)).card
      ≤ ((Finset.range n).erase v).card := Finset.card_le_card hsub
    _ < (Finset.range n).card := Finset.card_erase_lt_of_mem (Finset.mem_range.mpr hv)
    _ = n := Finset.card_range n

theorem frontier_push (search : Search) (st : GraphIterator) (v w : Nat) :
    w ∈ frontier search (GraphIterator.push search st v) ↔
      w ∈ frontier search st ∨ w = v := by
  cases search with
  | Bfs =>
    simp only [frontier, GraphIterator.push, List.mem_append, List.mem_singleton]
  | Dfs =>
    simp only [frontier, GraphIterator.push, List.mem_cons]
    tauto

theorem frontier_push_nodup (search : Search) (st : GraphIterator) (v : Nat)
    (h : (frontier search st).Nodup) (hv : v ∉ frontier search st) :
    (frontier search (GraphIterator.push search st v)).Nodup := by
  cases search with
  | Bfs =>
    show (st.queue ++ [v]).Nodup
    simp only [List.nodup_append]
    refine ⟨h, List.nodup_singleton v, ?_⟩
    intro a ha hav
    rw [List.mem_singleton] at hav
    subst hav
    exact hv ha
  | Dfs =>
    show (v :: st.stack).Nodup
    exact List.nodup_cons.mpr ⟨hv, h⟩

theorem push_fields (search : Search) (st : GraphIterator) (v : Nat) :
    (GraphIterator.push search st v).distances = st.distances ∧
    (GraphIterator.push search st v).parents = st.parents ∧
    (GraphIterator.push search st v).sink_found = st.sink_found := by
  cases search <;> exact ⟨rfl, rfl, rfl⟩

theorem frontier_setDP (search : Search) (st : GraphIterator) (d p : List Nat) :
    frontier search { st with distances := d, parents := p } =
      frontier search st := by
  cases search <;> rfl

theorem frontier_length_push (search : Search) (st : GraphIterator) (v : Nat) :
    (frontier search (GraphIterator.push search st v)).length =
      (frontier search st).length + 1 := by
  cases search <;> simp [frontier, GraphIterator.push]

theorem u32_bounds : U32_MAX < U32_MOD ∧ (0 : Nat) < U32_MOD := by
  constructor <;> norm_num [U32_MAX, U32_MOD]

theorem discover_spec {E : Type} [Inhabited E] {g : Graph E} {pred : E → Bool}
    {search : Search} {source : Nat} {st stN : GraphIterator}
    (inv : IterInv g pred search source st)
    {u v : Nat} (hu : u < g.n_vertexes) (huvis : visitedV st u)
    (hufr : u ∉ frontier search st)
    (hv : v < g.n_vertexes) (hvunvis : ¬ visitedV st v)
    (hvnb : v ∈ neighborsRow g u) (hpred : pred (edgeAt g u v) = true)
    (hstN : stN = GraphIterator.push search
      { st with
        distances := st.distances.set v ((st.distances.getD u 0 + 1) % U32_MOD)
        parents := st.parents.set v u } v) :
    IterInv g pred search source stN ∧
    visitedV stN v ∧ dOf stN v = dOf st u + 1 ∧ pOf stN v = u ∧
    (∀ w, w ≠ v → dOf stN w = dOf st w ∧ pOf stN w = pOf st w) ∧
    (∀ w, w ∈ frontier search stN ↔ w ∈ frontier search st ∨ w = v) ∧
    visitedCard g.n_vertexes stN = visitedCard g.n_vertexes st + 1 ∧
    iterMeasure g.n_vertexes search stN + 1 = iterMeasure g.n_vertexes search st ∧
    stN.sink_found = st.sink_found ∧
    (∀ w, w < g.n_vertexes → (poppedV search stN w ↔ poppedV search st w)) ∧
    u ∉ frontier search stN := by
  have hcard_le : visitedCard g.n_vertexes st ≤ g.n_vertexes := visitedCard_le _ _
  have hcard_lt : visitedCard g.n_vertexes st < g.n_vertexes := visitedCard_lt hv hvunvis
  have hdu : dOf st u + 1 ≤ visitedCard g.n_vertexes st := inv.dist_small u hu huvis
  have hmod : (st.distances.getD u 0 + 1) % U32_MOD = dOf st u + 1 := by
    rw [getD_eq_of_lt _ _ _ U32_MAX (by rw [inv.len_d]; exact hu)]
    show (dOf st u + 1) % U32_MOD = dOf st u + 1
    exact Nat.mod_eq_of_lt (by have := u32_bounds.1; have := inv.n_small; omega)
  have hne_uv : u ≠ v := fun h => hvunvis (h ▸ huvis)
  have hvfr : v ∉ frontier search st := fun h => hvunvis (inv.fr_vis v h)
  -- distances and parents of the new state
  have hdN : stN.distances = st.distances.set v (dOf st u + 1) := by
    rw [hstN, (push_fields search _ v).1, hmod]
  have hpN : stN.parents = st.parents.set v u := by
    rw [hstN, (push_fields search _ v).2.1]
  have hsfN : stN.sink_found = st.sink_found := by
    rw [hstN, (push_fields search _ v).2.2]
  have hfrN : ∀ w, w ∈ frontier search stN ↔ w ∈ frontier search st ∨ w = v := by
    intro w
    rw [hstN, frontier_push, frontier_setDP]
  have hdv : dOf stN v = dOf st u + 1 := by
    unfold dOf
    rw [hdN, getD_set_self _ _ _ _ (by rw [inv.len_d]; exact hv)]
    rfl
  have hpv : pOf stN v = u := by
    unfold pOf
    rw [hpN, getD_set_self _ _ _ _ (by rw [inv.len_p]; exact hv)]
  have hother : ∀ w, w ≠ v → dOf stN w = dOf st w ∧ pOf stN w = pOf st w := by
    intro w hw
    constructor
    · unfold dOf; rw [hdN, getD_set_ne _ _ _ _ _ (fun h => hw h.symm)]
    · unfold pOf; rw [hpN, getD_set_ne _ _ _ _ _ (fun h => hw h.symm)]
  have hvisv : visitedV stN v := by
    unfold visitedV
    rw [hdv]
    have := inv.n_small
    unfold U32_MAX at *
    omega
  have hvis_pres : ∀ w, visitedV st w → visitedV stN w := by
    intro w hw
    by_cases hwv : w = v
    · subst hwv; exact hvisv
    · unfold visitedV; rw [(hother w hwv).1]; exact hw
  have hvis_back : ∀ w, w ≠ v → visitedV stN w → visitedV st w := by
    intro w hwv hw
    unfold visitedV at hw
    rw [(hother w hwv).1] at hw
    exact hw
  have hcardN : visitedCard g.n_vertexes stN = visitedCard g.n_vertexes st + 1 := by
    unfold visitedCard
    have hset : (Finset.range g.n_vertexes).filter (fun w => dOf stN w ≠ U32_MAX) =
        insert v ((Finset.range g.n_vertexes).filter (fun w => dOf st w ≠ U32_MAX)) := by
      ext w
      simp only [Finset.mem_insert, Finset.mem_filter, Finset.mem_range]
      constructor
      · rintro ⟨hwr, hwvis⟩
        by_cases hwv : w = v
        · exact Or.inl hwv
        · exact Or.inr ⟨hwr, hvis_back w hwv hwvis⟩
      · rintro (hwv | ⟨hwr, hwvis⟩)
        · subst hwv
          exact ⟨hv, hvisv⟩
        · exact ⟨hwr, hvis_pres w hwvis⟩
    rw [hset, Finset.card_insert_of_not_mem]
    intro hmem
    rw [Finset.mem_filter] at hmem
    exact hvunvis hmem.2
  have hflen : (frontier search stN).length = (frontier search st).length + 1 := by
    rw [hstN, frontier_length_push, frontier_setDP]
  have hmeas : iterMeasure g.n_vertexes search stN + 1 =
      iterMeasure g.n_vertexes search st := by
    unfold iterMeasure
    rw [hcardN, hflen]
    omega
  have hpop : ∀ w, w < g.n_vertexes → (poppedV search stN w ↔ poppedV search st w) := by
    intro w hwlt
    unfold poppedV
    constructor
    · rintro ⟨hwvis, hwfr⟩
      by_cases hwv : w = v
      · subst hwv
        exact absurd ((hfrN w).mpr (Or.inr rfl)) hwfr
      · exact ⟨hvis_back w hwv hwvis, fun h => hwfr ((hfrN w).mpr (Or.inl h))⟩
    · rintro ⟨hwvis, hwfr⟩
      have hwv : w ≠ v := fun h => hvunvis (h ▸ hwvis)
      refine ⟨hvis_pres w hwvis, fun h => ?_⟩
      rcases (hfrN w).mp h with h1 | h1
      · exact hwfr h1
      · exact hwv h1
  have hufrN : u ∉ frontier search stN := by
    intro h
    rcases (hfrN u).mp h with h1 | h1
    · exact hufr h1
    · exact hne_uv h1
  refine ⟨?_, hvisv, hdv, hpv, hother, hfrN, hcardN, hmeas, hsfN, hpop, hufrN⟩
  refine ⟨inv.n_small, inv.nb_lt, ?_, ?_, inv.src_lt, ?_, ?_, ?_, ?_, ?_, ?_, ?_⟩
  · rw [hdN, List.length_set]; exact inv.len_d
  · rw [hpN, List.length_set]; exact inv.len_p
  · -- src_vis
    have hsv : source ≠ v := fun h => hvunvis (h ▸ (by unfold visitedV; rw [inv.src_vis]; have := inv.n_small; unfold U32_MAX at *; omega))
    rw [show dOf stN source = dOf st source from (hother source hsv).1]
    exact inv.src_vis
  · -- src_parent
    have hsvis : visitedV st source := by
      unfold visitedV; rw [inv.src_vis]; have := inv.n_small; unfold U32_MAX at *; omega
    have hsv : source ≠ v := fun h => hvunvis (h ▸ hsvis)
    rw [(hother source hsv).2]
    exact inv.src_parent
  · -- fr_lt
    intro w hw
    rcases (hfrN w).mp hw with h1 | h1
    · exact inv.fr_lt w h1
    · subst h1; exact hv
  · -- fr_vis
    intro w hw
    rcases (hfrN w).mp hw with h1 | h1
    · exact hvis_pres w (inv.fr_vis w h1)
    · subst h1; exact hvisv
  · -- fr_nodup
    rw [hstN]
    have h1 : (frontier search { st with
        distances := st.distances.set v ((st.distances.getD u 0 + 1) % U32_MOD)
        parents := st.parents.set v u }).Nodup := by
      rw [frontier_setDP]; exact inv.fr_nodup
    refine frontier_push_nodup _ _ _ h1 ?_
    rw [frontier_setDP]
    exact hvfr
  · -- dist_small
    intro w hwlt hwvis
    rw [hcardN]
    by_cases hwv : w = v
    · subst hwv
      rw [hdv]
      omega
    · rw [(hother w hwv).1]
      have := inv.dist_small w hwlt (hvis_back w hwv hwvis)
      omega
  · -- parent_spec
    intro w hwlt hwsrc hwvis
    by_cases hwv : w = v
    · subst hwv
      rw [hpv, hdv]
      refine ⟨hu, hvis_pres u huvis, ?_, hvnb, hpred, hvis_pres u huvis, hufrN⟩
      rw [(hother u hne_uv).1]
    · have hwvis0 : visitedV st w := hvis_back w hwv hwvis
      obtain ⟨hp1, hp2, hp3, hp4, hp5, hp6⟩ := inv.parent_spec w hwlt hwsrc hwvis0
      have hpw : pOf stN w = pOf st w := (hother w hwv).2
      rw [hpw]
      have hpv2 : pOf st w ≠ v := fun h => hvunvis (h ▸ hp2)
      refine ⟨hp1, hvis_pres _ hp2, ?_, hp4, hp5, (hpop _ hp1).mpr hp6⟩
      rw [(hother w hwv).1, (hother _ hpv2).1]
      exact hp3

theorem explore_fold {E : Type} [Inhabited E] {g : Graph E} {pred : E → Bool}
    {search : Search} {source : Nat} {u : Nat} (hu : u < g.n_vertexes) :
    ∀ (l : List Nat) (st : GraphIterator),
      (∀ x ∈ l, x ∈ neighborsRow g u) →
      IterInv g pred search source st →
      visitedV st u → u ∉ frontier search st →
      IterInv g pred search source (l.foldl (exploreStep g pred search u) st) ∧
      (∀ x ∈ l, pred (edgeAt g u x) = true →
        visitedV (l.foldl (exploreStep g pred search u) st) x) ∧
      (∀ w, w < g.n_vertexes → visitedV st w →
        visitedV (l.foldl (exploreStep g pred search u) st) w ∧
        dOf (l.foldl (exploreStep g pred search u) st) w = dOf st w ∧
        pOf (l.foldl (exploreStep g pred search u) st) w = pOf st w) ∧
      iterMeasure g.n_vertexes search (l.foldl (exploreStep g pred search u) st) ≤
        iterMeasure g.n_vertexes search st ∧
      (∀ w, w < g.n_vertexes →
        (poppedV search (l.foldl (exploreStep g pred search u) st) w ↔
          poppedV search st w)) ∧
      (l.foldl (exploreStep g pred search u) st).sink_found = st.sink_found ∧
      u ∉ frontier search (l.foldl (exploreStep g pred search u) st) := by
  intro l
  induction l with
  | nil =>
    intro st hl inv huvis hufr
    refine ⟨inv, ?_, fun w _ h => ⟨h, rfl, rfl⟩, le_refl _,
      fun w _ => Iff.rfl, rfl, hufr⟩
    intro x hx
    cases hx
  | cons x rest ih =>
    intro st hl inv huvis hufr
    have hxnb : x ∈ neighborsRow g u := hl x (List.mem_cons_self _ _)
    have hxlt : x < g.n_vertexes := inv.nb_lt u x hxnb
    rw [List.foldl_cons]
    by_cases hguard : (st.distances.getD x 0 == U32_MAX && pred (edgeAt g u x)) = true
    · -- discovery step
      have hguard1 : st.distances.getD x 0 = U32_MAX ∧ pred (edgeAt g u x) = true := by
        simpa using hguard
      have hxunvis : ¬ visitedV st x := by
        unfold visitedV dOf
        rw [← getD_eq_of_lt st.distances x 0 U32_MAX (by rw [inv.len_d]; exact hxlt)]
        simpa using hguard1.1
      have hstep : exploreStep g pred search u st x = GraphIterator.push search
          { st with
            distances := st.distances.set x ((st.distances.getD u 0 + 1) % U32_MOD)
            parents := st.parents.set x u } x := by
        rw [exploreStep, if_pos hguard]
      obtain ⟨inv1, hvisx, hdx, hpx, hother, hfr1, hcard1, hmeas1, hsf1, hpop1, hufr1⟩ :=
        @discover_spec E _ g pred search source st
          (exploreStep g pred search u st x)
          inv u x hu huvis hufr hxlt hxunvis hxnb hguard1.2 hstep
      have huvis1 : visitedV (exploreStep g pred search u st x) u := by
        have hne : u ≠ x := fun h => hxunvis (h ▸ huvis)
        unfold visitedV
        rw [(hother u hne).1]
        exact huvis
      obtain ⟨A, B, C, D, Epop, F, G⟩ := ih (exploreStep g pred search u st x)
        (fun y hy => hl y (List.mem_cons_of_mem _ hy)) inv1 huvis1 hufr1
      refine ⟨A, ?_, ?_, ?_, ?_, ?_, ?_⟩
      · intro y hy hpredy
        rcases List.mem_cons.mp hy with hyx | hyr
        · subst hyx
          exact (C y hxlt hvisx).1
        · exact B y hyr hpredy
      · intro w hwlt hwvis
        have hwx : w ≠ x := fun h => hxunvis (h ▸ hwvis)
        have hwvis1 : visitedV (exploreStep g pred search u st x) w := by
          unfold visitedV
          rw [(hother w hwx).1]
          exact hwvis
        obtain ⟨c1, c2, c3⟩ := C w hwlt hwvis1
        exact ⟨c1, by rw [c2, (hother w hwx).1], by rw [c3, (hother w hwx).2]⟩
      · omega
      · intro w hwlt
        rw [Epop w hwlt, hpop1 w hwlt]
      · rw [F, hsf1]
      · exact G
    · -- no-op step
      have hstep : exploreStep g pred search u st x = st := by
        rw [exploreStep, if_neg hguard]
      rw [hstep]
      obtain ⟨A, B, C, D, Epop, F, G⟩ := ih st
        (fun y hy => hl y (List.mem_cons_of_mem _ hy)) inv huvis hufr
      refine ⟨A, ?_, C, D, Epop, F, G⟩
      intro y hy hpredy
      rcases List.mem_cons.mp hy with hyx | hyr
      · subst hyx
        have hyvis : visitedV st y := by
          rw [Bool.and_eq_true] at hguard
          push_neg at hguard
          unfold visitedV dOf
          rw [← getD_eq_of_lt st.distances y 0 U32_MAX (by rw [inv.len_d]; exact hxlt)]
          intro hEq
          exact hguard (by simpa using hEq) hpredy
        exact (C y hxlt hyvis).1
      · exact B y hyr hpredy

theorem pop_some {search : Search} {st : GraphIterator} {v : Nat}
    {st1 : GraphIterator}
    (h : GraphIterator.pop search st = some (v, st1)) :
    frontier search st = v :: frontier search st1 ∧
    st1.distances = st.distances ∧ st1.parents = st.parents ∧
    st1.sink_found = st.sink_found := by
  cases search with
  | Bfs =>
    cases hq : st.queue with
    | nil => rw [GraphIterator.pop, hq] at h; cases h
    | cons a rest =>
      rw [GraphIterator.pop, hq] at h
      cases h
      exact ⟨by rw [show frontier Search.Bfs st = st.queue from rfl, hq]; rfl, rfl, rfl, rfl⟩
  | Dfs =>
    cases hq : st.stack with
    | nil => rw [GraphIterator.pop, hq] at h; cases h
    | cons a rest =>
      rw [GraphIterator.pop, hq] at h
      cases h
      exact ⟨by rw [show frontier Search.Dfs st = st.stack from rfl, hq]; rfl, rfl, rfl, rfl⟩

theorem pop_none {search : Search} {st : GraphIterator}
    (h : GraphIterator.pop search st = none) : frontier search st = [] := by
  cases search with
  | Bfs =>
    cases hq : st.queue with
    | nil => exact hq
    | cons a rest => rw [GraphIterator.pop, hq] at h; cases h
  | Dfs =>
    cases hq : st.stack with
    | nil => exact hq
    | cons a rest => rw [GraphIterator.pop, hq] at h; cases h

theorem exploredAt_mono {E : Type} [Inhabited E] {g : Graph E} {pred : E → Bool}
    {st st' : GraphIterator} {u : Nat}
    (h : exploredAt g pred st u)
    (hnb : ∀ q, ∀ x ∈ neighborsRow g q, x < g.n_vertexes)
    (hmono : ∀ w, w < g.n_vertexes → visitedV st w → visitedV st' w) :
    exploredAt g pred st' u := by
  intro x hx hpx
  exact hmono x (hnb u x hx) (h x hx hpx)

theorem iterInv_pop {E : Type} [Inhabited E] {g : Graph E} {pred : E → Bool}
    {search : Search} {source : Nat} {st stp : GraphIterator} {v : Nat}
    (inv : IterInv g pred search source st)
    (h : GraphIterator.pop search st = some (v, stp)) :
    IterInv g pred search source stp ∧ v < g.n_vertexes ∧ visitedV stp v ∧
    v ∉ frontier search stp ∧
    visitedCard g.n_vertexes stp = visitedCard g.n_vertexes st ∧
    iterMeasure g.n_vertexes search stp + 1 = iterMeasure g.n_vertexes search st ∧
    (∀ w, dOf stp w = dOf st w ∧ pOf stp w = pOf st w) ∧
    (∀ w, w < g.n_vertexes →
      (poppedV search stp w ↔ (poppedV search st w ∨ w = v))) := by
  obtain ⟨hfr, hd, hp, hsf⟩ := pop_some h
  have harr : ∀ w, dOf stp w = dOf st w ∧ pOf stp w = pOf st w := by
    intro w
    unfold dOf pOf
    rw [hd, hp]
    exact ⟨rfl, rfl⟩
  have hviseq : ∀ w, visitedV stp w ↔ visitedV st w := by
    intro w
    unfold visitedV
    rw [(harr w).1]
  have hvfr : v ∈ frontier search st := by rw [hfr]; exact List.mem_cons_self _ _
  have hvlt : v < g.n_vertexes := inv.fr_lt v hvfr
  have hvvis : visitedV st v := inv.fr_vis v hvfr
  have hnodup := inv.fr_nodup
  rw [hfr] at hnodup
  have hvnotin : v ∉ frontier search stp := (List.nodup_cons.mp hnodup).1
  have hcard : visitedCard g.n_vertexes stp = visitedCard g.n_vertexes st := by
    unfold visitedCard
    congr 1
    apply Finset.filter_congr
    intro w _
    rw [(harr w).1]
  have hfrsub : ∀ w, w ∈ frontier search stp → w ∈ frontier search st := by
    intro w hw
    rw [hfr]
    exact List.mem_cons_of_mem _ hw
  have hpop_iff : ∀ w, w < g.n_vertexes →
      (poppedV search stp w ↔ (poppedV search st w ∨ w = v)) := by
    intro w hwlt
    unfold poppedV
    rw [hviseq w]
    constructor
    · rintro ⟨hwvis, hwfr⟩
      by_cases hwv : w = v
      · exact Or.inr hwv
      · refine Or.inl ⟨hwvis, fun hmem => ?_⟩
        rw [hfr] at hmem
        rcases List.mem_cons.mp hmem with h1 | h1
        · exact hwv h1
        · exact hwfr h1
    · rintro (⟨hwvis, hwfr⟩ | hwv)
      · exact ⟨hwvis, fun hmem => hwfr (hfrsub w hmem)⟩
      · subst hwv
        exact ⟨hvvis, hvnotin⟩
  refine ⟨?_, hvlt, (hviseq v).mpr hvvis, hvnotin, hcard, ?_, harr, hpop_iff⟩
  · refine ⟨inv.n_small, inv.nb_lt, by rw [hd]; exact inv.len_d,
      by rw [hp]; exact inv.len_p, inv.src_lt, ?_, ?_, ?_, ?_, ?_, ?_, ?_⟩
    · rw [(harr source).1]; exact inv.src_vis
    · rw [(harr source).2]; exact inv.src_parent
    · intro w hw; exact inv.fr_lt w (hfrsub w hw)
    · intro w hw; exact (hviseq w).mpr (inv.fr_vis w (hfrsub w hw))
    · exact (List.nodup_cons.mp hnodup).2
    · intro w hwlt hwvis
      rw [hcard, (harr w).1]
      exact inv.dist_small w hwlt ((hviseq w).mp hwvis)
    · intro w hwlt hwsrc hwvis
      obtain ⟨hp1, hp2, hp3, hp4, hp5, hp6⟩ :=
        inv.parent_spec w hwlt hwsrc ((hviseq w).mp hwvis)
      rw [(harr w).1, (harr w).2]
      refine ⟨hp1, (hviseq _).mpr hp2, by rw [(harr _).1]; exact hp3, hp4, hp5, ?_⟩
      unfold poppedV at hp6 ⊢
      exact ⟨(hviseq _).mpr hp6.1, fun hmem => hp6.2 (hfrsub _ hmem)⟩
  · unfold iterMeasure
    rw [hcard, hfr]
    simp [List.length_cons]
    omega

theorem next_some_spec {E : Type} [Inhabited E] {g : Graph E} {pred : E → Bool}
    {search : Search} {source sink : Nat} {st st1 : GraphIterator}
    {item : Nat × Nat × Nat}
    (inv : IterInv g pred search source st)
    (h : GraphIterator.next g pred search sink st = some (item, st1)) :
    IterInv g pred search source st1 ∧
    item.1 < g.n_vertexes ∧ visitedV st item.1 ∧
    iterMeasure g.n_vertexes search st1 < iterMeasure g.n_vertexes search st ∧
    (∀ w, w < g.n_vertexes → visitedV st w →
      visitedV st1 w ∧ dOf st1 w = dOf st w ∧ pOf st1 w = pOf st w) ∧
    (∀ w, w < g.n_vertexes →
      (poppedV search st1 w ↔ (poppedV search st w ∨ w = item.1))) ∧
    item.2.1 = dOf st1 item.1 ∧ item.2.2 = pOf st1 item.1 ∧
    st1.sink_found = (item.1 == sink) ∧ st.sink_found = false ∧
    ((∀ q, q < g.n_vertexes → poppedV search st q → exploredAt g pred st q) →
     st1.sink_found = false → ∀ q, q < g.n_vertexes → poppedV search st1 q →
      exploredAt g pred st1 q) := by
  rw [GraphIterator.next] at h
  by_cases hsf : st.sink_found = true
  · rw [if_pos hsf] at h; cases h
  · rw [if_neg hsf] at h
    have hsf0 : st.sink_found = false := by
      cases hv : st.sink_found
      · rfl
      · exact absurd hv hsf
    rcases hpop : GraphIterator.pop search st with _ | vp
    · rw [hpop] at h; cases h
    · rw [hpop] at h
      obtain ⟨v, stp⟩ := vp
      dsimp only at h
      obtain ⟨invp, hvlt, hvvisp, hvfrp, hcardp, hmeasp, harrp, hpopp⟩ :=
        iterInv_pop inv hpop
      have hvvis : visitedV st v := by
        unfold visitedV
        rw [← (harrp v).1]
        exact hvvisp
      by_cases hvsink : (v == sink) = true
      · -- sink branch
        rw [if_pos hvsink] at h
        cases h
        have harr1 : ∀ w, dOf ({ stp with sink_found := true }) w = dOf stp w ∧
            pOf ({ stp with sink_found := true }) w = pOf stp w := fun w => ⟨rfl, rfl⟩
        have hfr1 : frontier search ({ stp with sink_found := true }) =
            frontier search stp := by cases search <;> rfl
        have hinv1 : IterInv g pred search source { stp with sink_found := true } := by
          obtain ⟨a1, a2, a3, a4, a5, a6, a7, a8, a9, a10, a11, a12⟩ := invp
          exact ⟨a1, a2, a3, a4, a5, a6, a7, by rw [hfr1]; exact a8,
            by rw [hfr1]; exact a9, by rw [hfr1]; exact a10, a11,
            by unfold poppedV; rw [hfr1]; exact a12⟩
        have hcard1 : visitedCard g.n_vertexes { stp with sink_found := true } =
            visitedCard g.n_vertexes stp := rfl
        have hmeas1 : iterMeasure g.n_vertexes search { stp with sink_found := true } =
            iterMeasure g.n_vertexes search stp := by
          unfold iterMeasure
          rw [hcard1, hfr1]
        refine ⟨hinv1, hvlt, hvvis, by omega, ?_, ?_, ?_, ?_, hvsink.symm, hsf0, ?_⟩
        · intro w hwlt hwvis
          refine ⟨?_, by rw [(harr1 w).1]; exact (harrp w).1,
            by rw [(harr1 w).2]; exact (harrp w).2⟩
          unfold visitedV
          rw [(harr1 w).1, (harrp w).1]
          exact hwvis
        · intro w hwlt
          unfold poppedV
          rw [hfr1]
          exact hpopp w hwlt
        · show stp.distances.getD v 0 = _
          rw [getD_eq_of_lt stp.distances v 0 U32_MAX (by rw [invp.len_d]; exact hvlt)]
          rfl
        · show stp.parents.getD v 0 = _
          rw [getD_eq_of_lt stp.parents v 0 USIZE_MAX (by rw [invp.len_p]; exact hvlt)]
          rfl
        · intro _ hsf1
          cases hsf1
      · -- explore branch
        rw [if_neg hvsink] at h
        rw [show exploreNeighbors g pred search v stp =
          (neighborsRow g v).foldl (exploreStep g pred search v) stp from rfl] at h
        obtain ⟨A, B, C, D, Epop, F, G⟩ :=
          @explore_fold E _ g pred search source v hvlt (neighborsRow g v) stp
            (fun x hx => hx) invp hvvisp hvfrp
        cases h
        refine ⟨A, hvlt, hvvis, by omega, ?_, ?_, ?_, ?_, ?_, hsf0, ?_⟩
        · intro w hwlt hwvis
          have hwvisp : visitedV stp w := by
            unfold visitedV
            rw [(harrp w).1]
            exact hwvis
          obtain ⟨c1, c2, c3⟩ := C w hwlt hwvisp
          exact ⟨c1, by rw [c2, (harrp w).1], by rw [c3, (harrp w).2]⟩
        · intro w hwlt
          rw [Epop w hwlt]
          exact hpopp w hwlt
        · show (List.foldl (exploreStep g pred search v) stp (neighborsRow g v)).distances.getD v 0 = _
          rw [getD_eq_of_lt _ v 0 U32_MAX (by rw [A.len_d]; exact hvlt)]
          rfl
        · show (List.foldl (exploreStep g pred search v) stp (neighborsRow g v)).parents.getD v 0 = _
          rw [getD_eq_of_lt _ v 0 USIZE_MAX (by rw [A.len_p]; exact hvlt)]
          rfl
        · rw [F]
          obtain ⟨_, _, _, hsfp⟩ := pop_some hpop
          rw [hsfp, hsf0]
          cases hb : (v == sink)
          · rfl
          · exact absurd hb hvsink
        · intro hexp _ q hqlt hqpop
          have hmono : ∀ w, w < g.n_vertexes → visitedV st w →
              visitedV ((neighborsRow g v).foldl (exploreStep g pred search v) stp) w := by
            intro w hwlt hwvis
            refine (C w hwlt ?_).1
            unfold visitedV
            rw [(harrp w).1]
            exact hwvis
          have hqpop2 : poppedV search stp q := (Epop q hqlt).mp hqpop
          rcases (hpopp q hqlt).mp hqpop2 with hqp | hqv
          · exact exploredAt_mono (hexp q hqlt hqp) inv.nb_lt hmono
          · subst hqv
            intro x hx hpx
            exact B x hx hpx
  

theorem next_none_spec {E : Type} [Inhabited E] {g : Graph E} {pred : E → Bool}
    {search : Search} {sink : Nat} {st : GraphIterator}
    (h : GraphIterator.next g pred search sink st = none) :
    st.sink_found = true ∨ (st.sink_found = false ∧ frontier search st = []) := by
  rw [GraphIterator.next] at h
  by_cases hsf : st.sink_found = true
  · exact Or.inl hsf
  · rw [if_neg hsf] at h
    have hsf0 : st.sink_found = false := by
      cases hv : st.sink_found
      · rfl
      · exact absurd hv hsf
    rcases hpop : GraphIterator.pop search st with _ | vp
    · exact Or.inr ⟨hsf0, pop_none hpop⟩
    · rw [hpop] at h
      dsimp only at h
      obtain ⟨v, stp⟩ := vp
      by_cases hv : (v == sink) = true
      · rw [if_pos hv] at h; cases h
      · rw [if_neg hv] at h; cases h

theorem drain_spec {E : Type} [Inhabited E] {g : Graph E} {pred : E → Bool}
    {search : Search} {source sink : Nat} (fuel : Nat) :
    ∀ (st : GraphIterator) (map : List Nat) (se : Bool),
    DrainInv g pred search source sink st map se →
    iterMeasure g.n_vertexes search st < fuel →
    ∃ mapF seF stF,
      drainIter g pred search sink fuel st map se = some (mapF, seF) ∧
      DrainInv g pred search source sink stF mapF seF ∧
      (seF = false → stF.sink_found = false ∧ frontier search stF = []) := by
  induction fuel with
  | zero =>
    intro st map se hinv hfuel
    omega
  | succ fuel ih =>
    intro st map se hinv hfuel
    rcases hnext : GraphIterator.next g pred search sink st with _ | pr
    · refine ⟨map, se, st, ?_, hinv, ?_⟩
      · rw [drainIter, hnext]
      · intro hse
        rcases next_none_spec hnext with h1 | h1
        · rw [hinv.sf_eq] at h1
          rw [h1] at hse
          cases hse
        · exact h1
    · obtain ⟨item, st1⟩ := pr
      obtain ⟨inv1, hlt1, hvis1, hmeas1, hmono1, hpop1, hitd, hitp, hsf1, hsf0, hexp1⟩ :=
        next_some_spec hinv.inv hnext
      have hse0 : se = false := by rw [← hinv.sf_eq]; exact hsf0
      have hinvN : DrainInv g pred search source sink st1
          (map.set item.1 item.2.2) (se || (item.1 == sink)) := by
        refine ⟨inv1, hexp1 (hinv.explored hsf0), by simpa using hinv.map_len, ?_, ?_, ?_, ?_, ?_⟩
        · -- map_popped
          intro v hvlt hvpop
          by_cases hvi : v = item.1
          · subst hvi
            rw [getD_set_self _ _ _ _ (by rw [hinv.map_len]; exact hlt1)]
            exact hitp
          · have hvpop0 : poppedV search st v := by
              rcases (hpop1 v hvlt).mp hvpop with h1 | h1
              · exact h1
              · exact absurd h1 hvi
            rw [getD_set_ne _ _ _ _ _ (fun h => hvi h.symm)]
            rw [hinv.map_popped v hvlt hvpop0]
            exact ((hmono1 v hvlt hvpop0.1).2.2).symm
        · -- map_unpopped
          intro v hvlt hvpop
          have hvi : v ≠ item.1 := by
            intro h
            exact hvpop ((hpop1 v hvlt).mpr (Or.inr h))
          have hvpop0 : ¬ poppedV search st v := by
            intro h
            exact hvpop ((hpop1 v hvlt).mpr (Or.inl h))
          rw [getD_set_ne _ _ _ _ _ (fun h => hvi h.symm)]
          exact hinv.map_unpopped v hvlt hvpop0
        · -- sf_eq
          rw [hsf1, hse0]
          simp
        · -- se_popped
          intro hseN
          rw [hse0] at hseN
          simp at hseN
          have : item.1 = sink := by simpa using hseN
          rw [← this]
          exact ⟨hlt1, (hpop1 item.1 hlt1).mpr (Or.inr rfl)⟩
        · -- popped_se
          intro hsknk hskpop
          rcases (hpop1 sink hsknk).mp hskpop with h1 | h1
          · have := hinv.popped_se hsknk h1
            rw [this]
            simp
          · rw [hse0]
            simp
            simpa using h1.symm
      have hrec := ih st1 (map.set item.1 item.2.2) (se || (item.1 == sink)) hinvN
        (by omega)
      obtain ⟨mapF, seF, stF, hdr, hinvF, hend⟩ := hrec
      refine ⟨mapF, seF, stF, ?_, hinvF, hend⟩
      rw [drainIter, hnext]
      exact hdr

theorem init_dOf {E : Type} {g : Graph E} {source : Nat} {search : Search}
    {st0 : GraphIterator}
    (hnew : GraphIterator.new g source search = some st0) :
    source < g.n_vertexes ∧
    dOf st0 source = 0 ∧
    (∀ v, v ≠ source → dOf st0 v = U32_MAX) ∧
    (∀ v, pOf st0 v = USIZE_MAX) ∧
    frontier search st0 = [source] ∧
    st0.sink_found = false ∧
    st0.distances.length = g.n_vertexes ∧
    st0.parents.length = g.n_vertexes := by
  rw [GraphIterator.new.eq_def] at hnew
  by_cases hs : source < g.n_vertexes
  · rw [if_pos hs] at hnew
    cases hnew
    refine ⟨hs, ?_, ?_, ?_, ?_, rfl, by simp, by simp⟩
    · unfold dOf
      show ((List.replicate g.n_vertexes U32_MAX).set source 0).getD source U32_MAX = 0
      rw [getD_set_self _ _ _ _ (by rw [List.length_replicate]; exact hs)]
    · intro v hv
      unfold dOf
      show ((List.replicate g.n_vertexes U32_MAX).set source 0).getD v U32_MAX = U32_MAX
      rw [getD_set_ne _ _ _ _ _ (fun h => hv h.symm)]
      exact getD_replicate_any _ _ _
    · intro v
      unfold pOf
      exact getD_replicate_any _ _ _
    · cases search <;> rfl
  · rw [if_neg hs] at hnew
    cases hnew

theorem drainInv_init {E : Type} [Inhabited E] {g : Graph E} {pred : E → Bool}
    {search : Search} {source sink : Nat} {st0 : GraphIterator}
    (hn : g.n_vertexes < U32_MAX)
    (hnb : ∀ u, ∀ v ∈ neighborsRow g u, v < g.n_vertexes)
    (hnew : GraphIterator.new g source search = some st0) :
    DrainInv g pred search source sink st0
      (List.replicate g.n_vertexes USIZE_MAX) false ∧
    iterMeasure g.n_vertexes search st0 < 2 * g.n_vertexes + 2 := by
  obtain ⟨hs, hd0, hdother, hpall, hfr, hsf, hld, hlp⟩ := init_dOf hnew
  have hu32 : (0:Nat) ≠ U32_MAX := by norm_num [U32_MAX]
  have hvis : ∀ v, visitedV st0 v ↔ v = source := by
    intro v
    unfold visitedV
    constructor
    · intro h
      by_contra hv
      rw [hdother v hv] at h
      exact h rfl
    · intro h
      subst h
      rw [hd0]
      exact hu32
  have hcard : visitedCard g.n_vertexes st0 = 1 := by
    unfold visitedCard
    have : (Finset.range g.n_vertexes).filter (fun v => dOf st0 v ≠ U32_MAX) = {source} := by
      ext w
      simp only [Finset.mem_filter, Finset.mem_range, Finset.mem_singleton]
      constructor
      · rintro ⟨_, hw⟩
        exact (hvis w).mp hw
      · intro h
        rw [h]
        exact ⟨hs, (hvis source).mpr rfl⟩
    rw [this]
    rfl
  have hpopped : ∀ v, ¬ poppedV search st0 v := by
    intro v ⟨h1, h2⟩
    have := (hvis v).mp h1
    subst this
    rw [hfr] at h2
    exact h2 (List.mem_singleton.mpr rfl)
  constructor
  · refine ⟨?_, ?_, by simp, ?_, ?_, hsf, ?_, ?_⟩
    · -- IterInv
      refine ⟨hn, hnb, hld, hlp, hs, hd0, hpall source, ?_, ?_, ?_, ?_, ?_⟩
      · intro v hv
        rw [hfr] at hv
        rw [List.mem_singleton.mp hv]
        exact hs
      · intro v hv
        rw [hfr] at hv
        rw [List.mem_singleton.mp hv]
        exact (hvis source).mpr rfl
      · rw [hfr]
        exact List.nodup_singleton _
      · intro v hvlt hv
        rw [hcard, (hvis v).mp hv, hd0]
      · intro v hvlt hvsrc hv
        exact absurd ((hvis v).mp hv) hvsrc
    · intro _ u _ hpop
      exact absurd hpop (hpopped u)
    · intro v hvlt hpop
      exact absurd hpop (hpopped v)
    · intro v hvlt _
      exact getD_replicate_any _ _ _
    · intro h
      cases h
    · intro _ hpop
      exact absurd hpop (hpopped sink)
  · unfold iterMeasure
    rw [hcard, hfr]
    simp
    omega

theorem pathLoop_spec {E : Type} [Inhabited E] {g : Graph E} {pred : E → Bool}
    {search : Search} {source sink : Nat} {st : GraphIterator} {map : List Nat}
    {se : Bool}
    (hinv : DrainInv g pred search source sink st map se) :
    ∀ (d : Nat), ∀ (fuel v : Nat) (acc : List Nat),
    v < g.n_vertexes → poppedV search st v → dOf st v = d → d < fuel →
    ∃ p, pathLoop source map fuel v acc = some (acc ++ p) ∧
      p.head? = some v ∧ p.getLast? = some source ∧
      (∀ u ∈ p, u < g.n_vertexes ∧ visitedV st u ∧ dOf st u ≤ d) ∧
      List.Chain' (fun a b => a ∈ neighborsRow g b ∧ pred (edgeAt g b a) = true) p ∧
      p.Pairwise (fun a b => dOf st b < dOf st a) := by
  intro d
  induction d using Nat.strong_induction_on with
  | _ d ih =>
    intro fuel v acc hvlt hvpop hvd hfuel
    obtain ⟨fuel', rfl⟩ : ∃ f, fuel = f + 1 := ⟨fuel - 1, by omega⟩
    by_cases hvsrc : v = source
    · subst hvsrc
      have hd0 : d = 0 := by
        rw [← hvd, hinv.inv.src_vis]
      refine ⟨[v], ?_, rfl, rfl, ?_, ?_, ?_⟩
      · rw [pathLoop]
        rw [if_pos (by simp)]
        rw [List.concat_eq_append]
      · intro u hu
        rw [List.mem_singleton.mp hu]
        exact ⟨hvlt, hvpop.1, by omega⟩
      · exact List.chain'_singleton _
      · exact List.pairwise_singleton _ _
    · -- v is not the source: follow the parent
      obtain ⟨hp1, hp2, hp3, hp4, hp5, hp6⟩ :=
        hinv.inv.parent_spec v hvlt hvsrc hvpop.1
      have hmapv : map.get? v = some (pOf st v) := by
        have hlen : v < map.length := by rw [hinv.map_len]; exact hvlt
        have := hinv.map_popped v hvlt hvpop
        rw [List.getD, List.get?_eq_getElem?] at this
        rw [List.get?_eq_getElem?]
        rw [List.getElem?_eq_getElem hlen] at this ⊢
        rw [Option.getD_some] at this
        rw [this]
      have hdparent : dOf st (pOf st v) = d - 1 ∧ 1 ≤ d := by
        constructor <;> omega
      have hrec := ih (d - 1) (by omega) fuel' (pOf st v) (acc.concat v) hp1 hp6
        hdparent.1 (by omega)
      obtain ⟨p', hloop, hhead, hlast, hmem, hchain, hpair⟩ := hrec
      refine ⟨v :: p', ?_, rfl, ?_, ?_, ?_, ?_⟩
      · rw [pathLoop]
        rw [if_neg (by simpa using hvsrc), hmapv]
        show pathLoop source map fuel' (pOf st v) (acc.concat v) = _
        rw [hloop]
        simp [List.concat_eq_append]
      · cases hp : p' with
        | nil => rw [hp] at hhead; cases hhead
        | cons a as =>
          rw [hp] at hlast
          rw [List.getLast?_cons_cons]
          exact hlast
      · intro u hu
        rcases List.mem_cons.mp hu with h1 | h1
        · subst h1
          exact ⟨hvlt, hvpop.1, by omega⟩
        · obtain ⟨m1, m2, m3⟩ := hmem u h1
          exact ⟨m1, m2, by omega⟩
      · rw [List.chain'_cons']
        refine ⟨?_, hchain⟩
        intro y hy
        cases hp : p' with
        | nil => rw [hp] at hhead; cases hhead
        | cons a as =>
          have hy' : y = a := by
            rw [hp] at hy
            exact (by simpa using hy : a = y).symm
          have ha : a = pOf st v := by
            rw [hp] at hhead
            simpa using hhead
          rw [hy', ha]
          exact ⟨hp4, hp5⟩
      · rw [List.pairwise_cons]
        refine ⟨?_, hpair⟩
        intro u hu
        obtain ⟨_, _, m3⟩ := hmem u hu
        omega

theorem augmenting_path_spec {g : Graph FlowEdge} {source sink : Nat}
    {search : Search}
    (hn : g.n_vertexes < U32_MAX)
    (hnb : ∀ u, ∀ v ∈ neighborsRow g u, v < g.n_vertexes)
    (hsrc : source < g.n_vertexes) :
    ∃ r, augmenting_path g source sink search = some r ∧
      (∀ p, r = some p → GoodPath g flow_predicate source sink p) ∧
      (r = none → ∃ S : Finset Nat,
        ClosedVisited g flow_predicate source sink S) := by
  rcases hnew : GraphIterator.new g source search with _ | st0
  · rw [GraphIterator.new.eq_def, if_pos hsrc] at hnew
    cases hnew
  · obtain ⟨hinv0, hmeas0⟩ :=
      @drainInv_init FlowEdge _ g flow_predicate search source sink st0 hn hnb hnew
    obtain ⟨mapF, seF, stF, hdr, hinvF, hend⟩ :=
      drain_spec (iterFuel g) st0 (List.replicate g.n_vertexes USIZE_MAX) false
        hinv0 (by unfold iterFuel; omega)
    cases hseF : seF with
    | true =>
      rw [hseF] at hdr hinvF
      obtain ⟨hsklt, hskpop⟩ := hinvF.se_popped rfl
      have hdlt : dOf stF sink < pathFuel g := by
        have h1 := hinvF.inv.dist_small sink hsklt hskpop.1
        have h2 := visitedCard_le g.n_vertexes stF
        unfold pathFuel
        omega
      obtain ⟨p, hloop, hhead, hlast, hmem, hchain, hpair⟩ :=
        pathLoop_spec hinvF (dOf stF sink) (pathFuel g) sink [] hsklt hskpop rfl hdlt
      refine ⟨some p.reverse, ?_, ?_, ?_⟩
      · rw [augmenting_path, hnew]
        dsimp only
        rw [hdr]
        dsimp only
        rw [if_pos rfl]
        unfold path_from_visited
        rw [hloop]
        simp
      · intro q hq
        cases hq
        refine ⟨?_, ?_, ?_, ?_, ?_⟩
        · rw [List.head?_reverse]
          exact hlast
        · rw [List.getLast?_reverse]
          exact hhead
        · rw [List.nodup_reverse]
          exact hpair.imp (fun {a b} h heq => by subst heq; omega)
        · intro u hu
          rw [List.mem_reverse] at hu
          exact (hmem u hu).1
        · rw [List.chain'_reverse]
          exact hchain.imp (fun {a b} h => h)
      · intro h
        cases h
    | false =>
      rw [hseF] at hdr hinvF hend
      obtain ⟨hsfF, hfrF⟩ := hend rfl
      refine ⟨none, ?_, ?_, ?_⟩
      · rw [augmenting_path, hnew]
        dsimp only
        rw [hdr]
        dsimp only
        rw [if_neg (by simp)]
      · intro q hq
        cases hq
      · intro _
        refine ⟨(Finset.range g.n_vertexes).filter (fun v => dOf stF v ≠ U32_MAX),
          ?_, ?_, ?_, ?_⟩
        · rw [Finset.mem_filter, Finset.mem_range]
          refine ⟨hinvF.inv.src_lt, ?_⟩
          rw [hinvF.inv.src_vis]
          norm_num [U32_MAX]
        · intro hmem
          rw [Finset.mem_filter, Finset.mem_range] at hmem
          have hpop : poppedV search stF sink := ⟨hmem.2, by rw [hfrF]; exact List.not_mem_nil _⟩
          have := hinvF.popped_se hmem.1 hpop
          cases this
        · intro u hu
          rw [Finset.mem_filter, Finset.mem_range] at hu
          exact hu.1
        · intro u hu v hv hpred
          rw [Finset.mem_filter, Finset.mem_range] at hu
          have hpop : poppedV search stF u := ⟨hu.2, by rw [hfrF]; exact List.not_mem_nil _⟩
          have hvvis := hinvF.explored hsfF u hu.1 hpop v hv hpred
          rw [Finset.mem_filter, Finset.mem_range]
          exact ⟨hnb u v hv, hvvis⟩

theorem mShape_updateFlow {n : Nat} {m : List (List FlowEdge)} (hs : MShape n m)
    (a b : Nat) (d : Int) : MShape n (updateFlow m a b d) := by
  obtain ⟨h1, h2⟩ := hs
  by_cases ha : a < m.length
  · constructor
    · unfold updateFlow
      rw [List.length_set]
      exact h1
    · intro row hrow
      unfold updateFlow at hrow
      rcases List.mem_or_eq_of_mem_set hrow with hmem | heq
      · exact h2 row hmem
      · subst heq
        rw [List.length_set]
        exact h2 _ (getD_mem_of_lt _ _ _ ha)
  · unfold updateFlow
    rw [List.set_eq_of_length_le (by omega)]
    exact ⟨h1, h2⟩

theorem mAt_updateFlow {n : Nat} {m : List (List FlowEdge)} (hs : MShape n m)
    {a b : Nat} (ha : a < n) (hb : b < n) (d : Int) (u w : Nat) :
    mAt (updateFlow m a b d) u w =
      if u = a ∧ w = b then
        ⟨(mAt m a b).capacity, (mAt m a b).flow + d⟩
      else mAt m u w := by
  have hal : a < m.length := by rw [hs.1]; exact ha
  have hbl : b < (m.getD a []).length := by
    rw [hs.2 _ (getD_mem_of_lt _ _ _ hal)]
    exact hb
  unfold updateFlow mAt
  by_cases hu : u = a
  · subst hu
    rw [getD_set_self _ _ _ _ hal]
    by_cases hw : w = b
    · subst hw
      rw [getD_set_self _ _ _ _ hbl, if_pos ⟨rfl, rfl⟩]
    · rw [getD_set_ne _ _ _ _ _ (fun h => hw h.symm), if_neg (fun h => hw h.2)]
  · rw [getD_set_ne _ _ _ _ _ (fun h => hu h.symm), if_neg (fun h => hu h.1)]

theorem rowSum_updateFlow {n : Nat} {m : List (List FlowEdge)} (hs : MShape n m)
    {a b : Nat} (ha : a < n) (hb : b < n) (d : Int) (w : Nat) :
    rowSum (updateFlow m a b d) n w = rowSum m n w + (if w = a then d else 0) := by
  unfold rowSum
  by_cases hw : w = a
  · subst hw
    rw [if_pos rfl]
    have key : ∀ u ∈ Finset.range n, (mAt (updateFlow m w b d) w u).flow =
        (mAt m w u).flow + (if u = b then d else 0) := by
      intro u hu
      rw [mAt_updateFlow hs ha hb d w u]
      by_cases hub : u = b
      · subst hub
        rw [if_pos ⟨rfl, rfl⟩, if_pos rfl]
      · rw [if_neg (fun h => hub h.2), if_neg hub]
        omega
    rw [Finset.sum_congr rfl key, Finset.sum_add_distrib,
      Finset.sum_ite_eq' (Finset.range n) b (fun _ => d)]
    rw [if_pos (Finset.mem_range.mpr hb)]
  · rw [if_neg hw]
    have key : ∀ u ∈ Finset.range n, (mAt (updateFlow m a b d) w u).flow =
        (mAt m w u).flow := by
      intro u hu
      rw [mAt_updateFlow hs ha hb d w u, if_neg (fun h => hw h.1)]
    rw [Finset.sum_congr rfl key]
    omega

theorem colSum_eq_neg_rowSum {g : Graph FlowEdge} {source sink : Nat}
    (hf : FlowInv g source sink) (w : Nat) :
    colSum g.edges g.n_vertexes w = - rowSum g.edges g.n_vertexes w := by
  unfold colSum rowSum
  rw [← Finset.sum_neg_distrib]
  refine Finset.sum_congr rfl ?_
  intro u _
  exact hf.antisym u w

theorem zip_pairs_spec : ∀ (p : List Nat), p.Nodup →
    (∀ q ∈ p.zip p.tail, q.1 ∈ p ∧ q.2 ∈ p.tail ∧ q.1 ≠ q.2) ∧
    (p.zip p.tail).Nodup ∧
    (∀ q ∈ p.zip p.tail, (q.2, q.1) ∉ p.zip p.tail)
  | [], _ => by simp
  | [a], _ => by simp
  | a :: b :: rest, hnd => by
    have hnd2 : (b :: rest).Nodup := hnd.of_cons
    have hanotin : a ∉ b :: rest := (List.nodup_cons.mp hnd).1
    obtain ⟨ihmem, ihnd, ihrev⟩ := zip_pairs_spec (b :: rest) hnd2
    have hzip : (a :: b :: rest).zip (a :: b :: rest).tail =
        (a, b) :: (b :: rest).zip (b :: rest).tail := rfl
    rw [hzip]
    refine ⟨?_, ?_, ?_⟩
    · intro q hq
      rcases List.mem_cons.mp hq with h1 | h1
      · subst h1
        refine ⟨List.mem_cons_self _ _, List.mem_cons_self _ _, ?_⟩
        intro hab
        simp only [] at hab
        rw [hab] at hanotin
        exact hanotin (List.mem_cons_self _ _)
      · obtain ⟨m1, m2, m3⟩ := ihmem q h1
        exact ⟨List.mem_cons_of_mem _ m1, List.mem_cons_of_mem _ m2, m3⟩
    · rw [List.nodup_cons]
      refine ⟨?_, ihnd⟩
      intro hmem
      obtain ⟨m1, _, _⟩ := ihmem (a, b) hmem
      exact hanotin m1
    · intro q hq
      rcases List.mem_cons.mp hq with h1 | h1
      · subst h1
        intro hmem
        rcases List.mem_cons.mp hmem with h2 | h2
        · have hba : ((a, b).2, (a, b).1).1 = (a, b).1 := congrArg Prod.fst h2
          simp only [] at hba
          rw [hba] at hanotin
          exact hanotin (List.mem_cons_self _ _)
        · obtain ⟨_, m2, _⟩ := ihmem (b, a) h2
          exact hanotin (List.mem_cons_of_mem _ m2)
      · intro hmem
        rcases List.mem_cons.mp hmem with h2 | h2
        · have ha2 : q.2 = a := congrArg Prod.fst h2
          obtain ⟨_, m2, _⟩ := ihmem q h1
          rw [ha2] at m2
          exact hanotin (List.mem_cons_of_mem _ m2)
        · exact ihrev q h1 h2

theorem chain'_zip {α : Type} {R : α → α → Prop} :
    ∀ (p : List α), List.Chain' R p → ∀ q ∈ p.zip p.tail, R q.1 q.2
  | [], _, q, hq => by cases hq
  | [a], _, q, hq => by cases hq
  | a :: b :: rest, hch, q, hq => by
    have h1 : R a b := (List.chain'_cons.mp hch).1
    have h2 : List.Chain' R (b :: rest) := (List.chain'_cons.mp hch).2
    rcases List.mem_cons.mp hq with hqa | hqr
    · subst hqa
      exact h1
    · exact chain'_zip (b :: rest) h2 q hqr

theorem head_not_in_zip_snd {p : List Nat} (hnd : p.Nodup) {s : Nat}
    (hhead : p.head? = some s) :
    ∀ q ∈ p.zip p.tail, q.2 ≠ s := by
  intro q hq hq2
  obtain ⟨_, m2, _⟩ := (zip_pairs_spec p hnd).1 q hq
  cases p with
  | nil => cases hq
  | cons a rest =>
    have : a = s := by simpa using hhead
    subst this
    rw [hq2] at m2
    exact (List.nodup_cons.mp hnd).1 m2

theorem bottleneck_min : ∀ (es : List (Nat × FlowEdge × Nat)),
    (∀ e ∈ es, bottleneck es ≤ e.2.1.capacity - e.2.1.flow) ∧
    ((∀ e ∈ es, 1 ≤ e.2.1.capacity - e.2.1.flow) → 1 ≤ bottleneck es) := by
  have key : ∀ (es : List (Nat × FlowEdge × Nat)) (acc : Int),
      (es.foldl (fun acc e => min (e.2.1.capacity - e.2.1.flow) acc) acc ≤ acc) ∧
      (∀ e ∈ es, es.foldl (fun acc e => min (e.2.1.capacity - e.2.1.flow) acc) acc ≤
        e.2.1.capacity - e.2.1.flow) ∧
      ((∀ e ∈ es, 1 ≤ e.2.1.capacity - e.2.1.flow) → 1 ≤ acc →
        1 ≤ es.foldl (fun acc e => min (e.2.1.capacity - e.2.1.flow) acc) acc) := by
    intro es
    induction es with
    | nil =>
      intro acc
      refine ⟨le_refl _, ?_, fun _ h => h⟩
      intro e he
      cases he
    | cons t rest ih =>
      intro acc
      rw [List.foldl_cons]
      obtain ⟨k1, k2, k3⟩ := ih (min (t.2.1.capacity - t.2.1.flow) acc)
      refine ⟨?_, ?_, ?_⟩
      · calc _ ≤ min (t.2.1.capacity - t.2.1.flow) acc := k1
          _ ≤ acc := min_le_right _ _
      · intro e he
        rcases List.mem_cons.mp he with h1 | h1
        · subst h1
          calc _ ≤ min (e.2.1.capacity - e.2.1.flow) acc := k1
            _ ≤ _ := min_le_left _ _
        · exact k2 e h1
      · intro hall hacc
        refine k3 (fun e he => hall e (List.mem_cons_of_mem _ he)) ?_
        have := hall t (List.mem_cons_self _ _)
        exact le_min this hacc
  intro es
  obtain ⟨_, k2, k3⟩ := key es I32_MAX
  exact ⟨k2, fun h => k3 h (by norm_num [I32_MAX])⟩

theorem applyUpdates_flow {n : Nat} (f : Int) :
    ∀ (es : List (Nat × FlowEdge × Nat)) (m : List (List FlowEdge)),
    MShape n m →
    (∀ e ∈ es, e.1 < n ∧ e.2.2 < n ∧ e.1 ≠ e.2.2) →
    (es.map (fun e => (e.1, e.2.2))).Nodup →
    (∀ e ∈ es, (e.2.2, e.1) ∉ es.map (fun e => (e.1, e.2.2))) →
    ∀ x y,
      mAt (applyUpdates m es f) x y =
        ⟨(mAt m x y).capacity, (mAt m x y).flow
          + (if (x, y) ∈ es.map (fun e => (e.1, e.2.2)) then f else 0)
          - (if (y, x) ∈ es.map (fun e => (e.1, e.2.2)) then f else 0)⟩ := by
  intro es
  induction es with
  | nil =>
    intro m hs hb hnd hrev x y
    show mAt m x y = _
    simp
  | cons t rest ih =>
    obtain ⟨u, e0, v⟩ := t
    intro m hs hb hnd hrev x y
    obtain ⟨hu, hv, huv⟩ := hb (u, e0, v) (List.mem_cons_self _ _)
    simp only [] at hu hv huv
    have hsU : MShape n (updateFlow m u v f) := mShape_updateFlow hs _ _ _
    have hs1 : MShape n (updateFlow (updateFlow m u v f) v u (-f)) :=
      mShape_updateFlow hsU _ _ _
    have hstep : applyUpdates m ((u, e0, v) :: rest) f =
        applyUpdates (updateFlow (updateFlow m u v f) v u (-f)) rest f := rfl
    rw [hstep]
    have hm1cap : ∀ x y,
        (mAt (updateFlow (updateFlow m u v f) v u (-f)) x y).capacity =
        (mAt m x y).capacity := by
      intro x y
      rw [updateFlow_capacity, updateFlow_capacity]
    have hm1flow : ∀ x y,
        (mAt (updateFlow (updateFlow m u v f) v u (-f)) x y).flow =
        (mAt m x y).flow + (if x = u ∧ y = v then f else 0)
          + (if x = v ∧ y = u then -f else 0) := by
      intro x y
      rw [mAt_updateFlow hsU hv hu (-f) x y]
      by_cases h2 : x = v ∧ y = u
      · obtain ⟨rfl, rfl⟩ := h2
        rw [if_pos ⟨rfl, rfl⟩]
        rw [mAt_updateFlow hs hu hv f x y]
        rw [if_neg (by intro hc; omega)]
        rw [if_neg (by intro hc; omega), if_pos ⟨rfl, rfl⟩]
        show (mAt m x y).flow + -f = _
        omega
      · rw [if_neg h2]
        rw [mAt_updateFlow hs hu hv f x y]
        by_cases h1 : x = u ∧ y = v
        · obtain ⟨rfl, rfl⟩ := h1
          rw [if_pos ⟨rfl, rfl⟩, if_pos ⟨rfl, rfl⟩, if_neg h2]
          show (mAt m x y).flow + f = _
          omega
        · rw [if_neg h1, if_neg h1, if_neg h2]
          omega
    have hbr : ∀ e ∈ rest, e.1 < n ∧ e.2.2 < n ∧ e.1 ≠ e.2.2 :=
      fun e he => hb e (List.mem_cons_of_mem _ he)
    have hmap : ((u, e0, v) :: rest).map (fun e => (e.1, e.2.2)) =
        (u, v) :: rest.map (fun e => (e.1, e.2.2)) := rfl
    rw [hmap] at hnd hrev ⊢
    have hndr : (rest.map (fun e => (e.1, e.2.2))).Nodup := (List.nodup_cons.mp hnd).2
    have hheadnotin : (u, v) ∉ rest.map (fun e => (e.1, e.2.2)) :=
      (List.nodup_cons.mp hnd).1
    have hrevhead : (v, u) ∉ (u, v) :: rest.map (fun e => (e.1, e.2.2)) :=
      hrev (u, e0, v) (List.mem_cons_self _ _)
    have hrevr : ∀ e ∈ rest, (e.2.2, e.1) ∉ rest.map (fun e => (e.1, e.2.2)) := by
      intro e he hmem
      exact hrev e (List.mem_cons_of_mem _ he) (List.mem_cons_of_mem _ hmem)
    rw [ih (updateFlow (updateFlow m u v f) v u (-f)) hs1 hbr hndr hrevr x y]
    rw [hm1cap, hm1flow]
    have hvu_ne_uv : ((v : Nat), (u : Nat)) ≠ ((u : Nat), (v : Nat)) := by
      intro hc
      exact huv (congrArg Prod.snd hc)
    have huv_ne_vu : ((u : Nat), (v : Nat)) ≠ ((v : Nat), (u : Nat)) := by
      intro hc
      exact huv (congrArg Prod.fst hc)
    by_cases hxy1 : (x, y) = (u, v)
    · obtain ⟨rfl, rfl⟩ : x = u ∧ y = v :=
        ⟨congrArg Prod.fst hxy1, congrArg Prod.snd hxy1⟩
      have c1 : (x, y) ∉ rest.map (fun e => (e.1, e.2.2)) := hheadnotin
      have c2 : (y, x) ∉ rest.map (fun e => (e.1, e.2.2)) := by
        intro hc
        exact hrevhead (List.mem_cons_of_mem _ hc)
      rw [if_pos ⟨rfl, rfl⟩, if_neg (by intro hc; omega), if_neg c1, if_neg c2,
        if_pos (List.mem_cons_self _ _),
        if_neg (by
          intro hc
          rcases List.mem_cons.mp hc with h1 | h1
          · exact hvu_ne_uv h1
          · exact c2 h1)]
      congr 1
      omega
    · by_cases hxy2 : (x, y) = (v, u)
      · obtain ⟨rfl, rfl⟩ : x = v ∧ y = u :=
          ⟨congrArg Prod.fst hxy2, congrArg Prod.snd hxy2⟩
        have c1 : (x, y) ∉ rest.map (fun e => (e.1, e.2.2)) := by
          intro hc
          exact hrevhead (List.mem_cons_of_mem _ hc)
        have c2 : (y, x) ∉ rest.map (fun e => (e.1, e.2.2)) := hheadnotin
        rw [if_neg (by intro hc; omega), if_pos ⟨rfl, rfl⟩, if_neg c1, if_neg c2,
          if_neg (by
            intro hc
            rcases List.mem_cons.mp hc with h1 | h1
            · exact hvu_ne_uv h1
            · exact c1 h1),
          if_pos (List.mem_cons_self _ _)]
        congr 1
        omega
      · have hx1 : ¬(x = u ∧ y = v) := by
          intro hc
          exact hxy1 (by rw [hc.1, hc.2])
        have hx2 : ¬(x = v ∧ y = u) := by
          intro hc
          exact hxy2 (by rw [hc.1, hc.2])
        have hyx_ne : (y, x) ≠ (u, v) := by
          intro hc
          have h1 : y = u := congrArg Prod.fst hc
          have h2 : x = v := congrArg Prod.snd hc
          exact hx2 ⟨h2, h1⟩
        rw [if_neg hx1, if_neg hx2]
        have m1 : ((x, y) ∈ (u, v) :: rest.map (fun e => (e.1, e.2.2))) ↔
            ((x, y) ∈ rest.map (fun e => (e.1, e.2.2))) := by
          rw [List.mem_cons]
          constructor
          · rintro (h | h)
            · exact absurd h hxy1
            · exact h
          · exact Or.inr
        have m2 : ((y, x) ∈ (u, v) :: rest.map (fun e => (e.1, e.2.2))) ↔
            ((y, x) ∈ rest.map (fun e => (e.1, e.2.2))) := by
          rw [List.mem_cons]
          constructor
          · rintro (h | h)
            · exact absurd h hyx_ne
            · exact h
          · exact Or.inr
        rw [if_congr m1 rfl rfl, if_congr m2 rfl rfl]
        congr 1
        omega

theorem applyUpdates_shape {n : Nat} {m : List (List FlowEdge)} (hs : MShape n m)
    (es : List (Nat × FlowEdge × Nat)) (f : Int) :
    MShape n (applyUpdates m es f) := by
  induction es generalizing m with
  | nil => exact hs
  | cons t rest ih =>
    exact ih (mShape_updateFlow (mShape_updateFlow hs _ _ _) _ _ _)

theorem collect_pairs (g : Graph FlowEdge) (path : List Nat) :
    (collectPathEdges g path).map (fun e => (e.1, e.2.2)) = path.zip path.tail := by
  unfold collectPathEdges
  rw [List.map_map]
  have : ((fun e : Nat × FlowEdge × Nat => (e.1, e.2.2)) ∘
      (fun p : Nat × Nat => (p.1, edgeAt g p.1 p.2, p.2))) = id := by
    funext q
    rfl
  rw [this, List.map_id]

theorem collect_snapshot (g : Graph FlowEdge) (path : List Nat) :
    ∀ e ∈ collectPathEdges g path, e.2.1 = edgeAt g e.1 e.2.2 := by
  intro e he
  unfold collectPathEdges at he
  obtain ⟨q, _, hqe⟩ := List.mem_map.mp he
  rw [← hqe]

theorem rowSum_pairUpdate {n : Nat} {m : List (List FlowEdge)} (hs : MShape n m)
    {u v : Nat} (hu : u < n) (hv : v < n) (f : Int) (w : Nat) :
    rowSum (updateFlow (updateFlow m u v f) v u (-f)) n w =
      rowSum m n w + (if w = u then f else 0) + (if w = v then -f else 0) := by
  rw [rowSum_updateFlow (mShape_updateFlow hs _ _ _) hv hu (-f) w,
    rowSum_updateFlow hs hu hv f w]

theorem rowSum_applyUpdates_path {n : Nat} (f : Int) (F : Nat × Nat → FlowEdge) :
    ∀ (p : List Nat) (m : List (List FlowEdge)), MShape n m →
    (∀ q ∈ p, q < n) → ∀ w,
    rowSum (applyUpdates m ((p.zip p.tail).map (fun q => (q.1, F q, q.2))) f) n w =
      rowSum m n w + f * ((if p.head? = some w then 1 else 0) -
        (if p.getLast? = some w then 1 else 0))
  | [], m, hs, hb, w => by
    show rowSum m n w = _
    simp [List.head?]
  | [a], m, hs, hb, w => by
    show rowSum m n w = _
    simp only [List.head?_cons, List.getLast?_singleton]
    omega
  | a :: b :: rest, m, hs, hb, w => by
    have hzip : ((a :: b :: rest).zip (a :: b :: rest).tail).map
        (fun q => (q.1, F q, q.2)) =
        (a, F (a, b), b) :: (((b :: rest).zip (b :: rest).tail).map
          (fun q => (q.1, F q, q.2))) := rfl
    rw [hzip]
    have ha : a < n := hb a (List.mem_cons_self _ _)
    have hbn : b < n := hb b (List.mem_cons_of_mem _ (List.mem_cons_self _ _))
    have hstep : applyUpdates m ((a, F (a, b), b) ::
        (((b :: rest).zip (b :: rest).tail).map (fun q => (q.1, F q, q.2)))) f =
        applyUpdates (updateFlow (updateFlow m a b f) b a (-f))
          (((b :: rest).zip (b :: rest).tail).map (fun q => (q.1, F q, q.2))) f := rfl
    rw [hstep]
    have hs1 : MShape n (updateFlow (updateFlow m a b f) b a (-f)) :=
      mShape_updateFlow (mShape_updateFlow hs _ _ _) _ _ _
    rw [rowSum_applyUpdates_path f F (b :: rest)
      (updateFlow (updateFlow m a b f) b a (-f)) hs1
      (fun q hq => hb q (List.mem_cons_of_mem _ hq)) w]
    rw [rowSum_pairUpdate hs ha hbn f w]
    have hlast : (a :: b :: rest).getLast? = (b :: rest).getLast? :=
      List.getLast?_cons_cons
    rw [hlast]
    simp only [List.head?_cons, Option.some.injEq]
    split_ifs <;> omega

theorem flow_predicate_iff (e : FlowEdge) :
    flow_predicate e = true ↔ 1 ≤ e.capacity - e.flow := by
  unfold flow_predicate
  rw [decide_eq_true_eq]
  omega

theorem augment_preserves {g : Graph FlowEdge} {source sink : Nat}
    {path : List Nat}
    (hwf : GraphWF g) (hfi : FlowInv g source sink)
    (hgp : GoodPath g flow_predicate source sink path) :
    GraphWF (augmentAlong g path) ∧
    FlowInv (augmentAlong g path) source sink ∧
    (augmentAlong g path).n_vertexes = g.n_vertexes ∧
    (augmentAlong g path).neighbors = g.neighbors ∧
    (∀ u v, (edgeAt (augmentAlong g path) u v).capacity =
      (edgeAt g u v).capacity) ∧
    1 ≤ bottleneck (collectPathEdges g path) ∧
    (source ≠ sink →
      rowSum (augmentAlong g path).edges g.n_vertexes source =
        rowSum g.edges g.n_vertexes source +
          bottleneck (collectPathEdges g path)) := by
  obtain ⟨hhead, hlast, hnodup, hbound, hchain⟩ := hgp
  obtain ⟨hzp_mem, hzp_nd, hzp_rev⟩ := zip_pairs_spec path hnodup
  have hchainz := chain'_zip path hchain
  have hsnd_src := head_not_in_zip_snd hnodup hhead
  have hpairs := collect_pairs g path
  have hsnap := collect_snapshot g path
  have hmem_es : ∀ e ∈ collectPathEdges g path, (e.1, e.2.2) ∈ path.zip path.tail := by
    intro e he
    rw [← hpairs]
    exact List.mem_map_of_mem _ he
  have hb : ∀ e ∈ collectPathEdges g path, e.1 < g.n_vertexes ∧
      e.2.2 < g.n_vertexes ∧ e.1 ≠ e.2.2 := by
    intro e he
    obtain ⟨m1, m2, m3⟩ := hzp_mem _ (hmem_es e he)
    exact ⟨hbound _ m1, hbound _ (List.tail_subset _ m2), m3⟩
  have hndp : ((collectPathEdges g path).map (fun e => (e.1, e.2.2))).Nodup := by
    rw [hpairs]
    exact hzp_nd
  have hrevp : ∀ e ∈ collectPathEdges g path,
      (e.2.2, e.1) ∉ (collectPathEdges g path).map (fun e => (e.1, e.2.2)) := by
    intro e he
    rw [hpairs]
    exact hzp_rev _ (hmem_es e he)
  have hadm : ∀ e ∈ collectPathEdges g path,
      1 ≤ e.2.1.capacity - e.2.1.flow := by
    intro e he
    have h1 := (hchainz _ (hmem_es e he)).2
    rw [hsnap e he]
    exact (flow_predicate_iff _).mp h1
  have hbot1 : 1 ≤ bottleneck (collectPathEdges g path) :=
    (bottleneck_min _).2 hadm
  have hbot2 := (bottleneck_min (collectPathEdges g path)).1
  have hF := applyUpdates_flow (n := g.n_vertexes)
    (bottleneck (collectPathEdges g path)) (collectPathEdges g path)
    g.edges hwf.shape hb hndp hrevp
  have hedge : ∀ x y, edgeAt (augmentAlong g path) x y =
      mAt (applyUpdates g.edges (collectPathEdges g path)
        (bottleneck (collectPathEdges g path))) x y := by
    intro x y
    rfl
  have hnb : ∀ w, neighborsRow (augmentAlong g path) w = neighborsRow g w := by
    intro w
    rfl
  have hcap : ∀ u v, (edgeAt (augmentAlong g path) u v).capacity =
      (edgeAt g u v).capacity := by
    intro u v
    rw [hedge]
    exact applyUpdates_capacity _ _ _ _ _
  have hflow : ∀ u v, (edgeAt (augmentAlong g path) u v).flow =
      (edgeAt g u v).flow
        + (if (u, v) ∈ path.zip path.tail
            then bottleneck (collectPathEdges g path) else 0)
        - (if (v, u) ∈ path.zip path.tail
            then bottleneck (collectPathEdges g path) else 0) := by
    intro u v
    rw [hedge, hF u v, ← hpairs]
    rfl
  have hshape1 : MShape g.n_vertexes (augmentAlong g path).edges :=
    applyUpdates_shape hwf.shape _ _
  have hmemE : ∀ u v, (u, v) ∈ path.zip path.tail →
      edgeAt g u v = mAt g.edges u v ∧ v ∈ neighborsRow g u ∧
      bottleneck (collectPathEdges g path) ≤
        (edgeAt g u v).capacity - (edgeAt g u v).flow := by
    intro u v huv
    refine ⟨rfl, (hchainz _ huv).1, ?_⟩
    have : ((u, v).1, edgeAt g (u, v).1 (u, v).2, (u, v).2) ∈
        collectPathEdges g path := by
      unfold collectPathEdges
      exact List.mem_map_of_mem _ huv
    have h2 := hbot2 _ this
    simpa using h2
  refine ⟨?_, ?_, rfl, rfl, hcap, hbot1, ?_⟩
  · -- GraphWF preserved
    refine ⟨hwf.n_small, hshape1, ?_, ?_, ?_, ?_, ?_⟩
    · intro u v hv
      rw [hnb] at hv
      exact hwf.nb_lt u v hv
    · intro u v hv
      rw [hnb] at hv
      rw [hnb]
      exact hwf.nb_sym u v hv
    · intro u v
      rw [hcap]
      exact hwf.cap_nonneg u v
    · intro u v hcne
      rw [hcap] at hcne
      rw [hnb]
      exact hwf.cap_edge u v hcne
    · intro u v hcount
      rw [hcap]
      rw [show neighborsRow (augmentAlong g path) u = neighborsRow g u from rfl] at hcount
      exact hwf.count_cap u v hcount
  · -- FlowInv preserved
    refine ⟨?_, ?_, ?_, ?_, ?_⟩
    · intro u v
      rw [hflow u v, hflow v u]
      have := hfi.antisym u v
      omega
    · intro u v
      rw [hflow u v, hcap u v]
      by_cases h1 : (u, v) ∈ path.zip path.tail
      · have h2 : (v, u) ∉ path.zip path.tail := hzp_rev _ h1
        rw [if_pos h1, if_neg h2]
        have h3 := (hmemE u v h1).2.2
        omega
      · rw [if_neg h1]
        by_cases h2 : (v, u) ∈ path.zip path.tail
        · rw [if_pos h2]
          have := hfi.cap_le u v
          omega
        · rw [if_neg h2]
          have := hfi.cap_le u v
          omega
    · intro v
      rw [hflow source v]
      have h2 : (v, source) ∉ path.zip path.tail := by
        intro hc
        exact hsnd_src _ hc rfl
      rw [if_neg h2]
      have := hfi.src_nonneg v
      by_cases h1 : (source, v) ∈ path.zip path.tail
      · rw [if_pos h1]
        omega
      · rw [if_neg h1]
        omega
    · intro u v hne
      rw [hnb]
      rw [hflow u v] at hne
      by_cases h1 : (u, v) ∈ path.zip path.tail
      · exact (hmemE u v h1).2.1
      · by_cases h2 : (v, u) ∈ path.zip path.tail
        · exact hwf.nb_sym v u (hmemE v u h2).2.1
        · rw [if_neg h1, if_neg h2] at hne
          refine hfi.support u v ?_
          intro hc
          rw [hc] at hne
          omega
    · intro w hwlt hws hwt
      have hrs := rowSum_applyUpdates_path (n := g.n_vertexes)
        (bottleneck (collectPathEdges g path))
        (fun q => edgeAt g q.1 q.2) path g.edges hwf.shape hbound w
      have hcoll : ((path.zip path.tail).map
          (fun q => (q.1, edgeAt g q.1 q.2, q.2))) = collectPathEdges g path := rfl
      rw [hcoll] at hrs
      show rowSum (applyUpdates g.edges (collectPathEdges g path)
        (bottleneck (collectPathEdges g path))) g.n_vertexes w = 0
      rw [hrs]
      have hh : ¬ path.head? = some w := by
        rw [hhead]
        intro hc
        exact hws (Option.some.inj hc).symm
      have hl : ¬ path.getLast? = some w := by
        rw [hlast]
        intro hc
        exact hwt (Option.some.inj hc).symm
      rw [if_neg hh, if_neg hl]
      rw [hfi.conserve w hwlt hws hwt]
      ring
  · -- source row sum increases by the bottleneck
    intro hst
    have hrs := rowSum_applyUpdates_path (n := g.n_vertexes)
      (bottleneck (collectPathEdges g path))
      (fun q => edgeAt g q.1 q.2) path g.edges hwf.shape hbound source
    have hcoll : ((path.zip path.tail).map
        (fun q => (q.1, edgeAt g q.1 q.2, q.2))) = collectPathEdges g path := rfl
    rw [hcoll] at hrs
    have hgedges : (augmentAlong g path).edges =
        applyUpdates g.edges (collectPathEdges g path)
          (bottleneck (collectPathEdges g path)) := rfl
    rw [hgedges, hrs]
    have hh : path.head? = some source := hhead
    have hl : ¬ path.getLast? = some source := by
      rw [hlast]
      intro hc
      exact hst (Option.some.inj hc).symm
    rw [if_pos hh, if_neg hl]
    ring

end MaxFlowRs
namespace MaxFlowRs

theorem foldl_total {g : Graph FlowEdge} {source : Nat} :
    ∀ (l : List Nat) (acc : Int),
    l.foldl (fun acc v =>
      if (edgeAt g source v).capacity ≠ 0 then acc + (edgeAt g source v).flow
      else acc) acc =
    acc + (l.map (fun v =>
      if (edgeAt g source v).capacity ≠ 0 then (edgeAt g source v).flow
      else 0)).sum
  | [], acc => by simp
  | v :: rest, acc => by
    rw [List.foldl_cons, foldl_total rest, List.map_cons, List.sum_cons]
    by_cases hc : (edgeAt g source v).capacity ≠ 0
    · rw [if_pos hc, if_pos hc]
      ring
    · rw [if_neg hc, if_neg hc]
      ring

theorem total_eq_rowSum {g : Graph FlowEdge} {source sink : Nat}
    (hwf : GraphWF g) (hfi : FlowInv g source sink) :
    total_from_source g source = rowSum g.edges g.n_vertexes source := by
  unfold total_from_source rowSum
  rw [foldl_total]
  rw [Finset.sum_list_map_count]
  have hsubset : (neighborsRow g source).toFinset ⊆ Finset.range g.n_vertexes := by
    intro v hv
    rw [List.mem_toFinset] at hv
    exact Finset.mem_range.mpr (hwf.nb_lt source v hv)
  rw [show (0 : Int) + _ = _ from zero_add _]
  rw [← Finset.sum_subset hsubset (fun v _ hv => ?_)]
  · refine Finset.sum_congr rfl ?_
    intro v hv
    by_cases hc : (edgeAt g source v).capacity ≠ 0
    · have hcount : (neighborsRow g source).count v = 1 := by
        have hle : ¬ 2 ≤ (neighborsRow g source).count v := by
          intro h2
          exact hc (hwf.count_cap source v h2)
        have hge : 1 ≤ (neighborsRow g source).count v := by
          rw [List.one_le_count_iff]
          exact hwf.cap_edge source v hc
        omega
      rw [hcount, if_pos hc]
      simp [edgeAt]
    · have hflow0 : (edgeAt g source v).flow = 0 := by
        have h1 := hfi.cap_le source v
        have h2 := hfi.src_nonneg v
        push_neg at hc
        omega
      rw [if_neg hc, smul_zero,
        show (mAt g.edges source v).flow = (edgeAt g source v).flow from rfl,
        hflow0]
  · -- vertices in range but not neighbors contribute zero flow
    have hv2 : v ∉ neighborsRow g source := by
      rw [← List.mem_toFinset]
      exact hv
    have hc : (edgeAt g source v).capacity = 0 := by
      by_contra hc
      exact hv2 (hwf.cap_edge source v hc)
    have hflow0 : (edgeAt g source v).flow = 0 := by
      have h1 := hfi.cap_le source v
      have h2 := hfi.src_nonneg v
      omega
    rw [show (mAt g.edges source v).flow = (edgeAt g source v).flow from rfl]
    exact hflow0

theorem rowSum_le_sumCap {g : Graph FlowEdge} {source sink : Nat}
    (hfi : FlowInv g source sink) :
    rowSum g.edges g.n_vertexes source ≤ sumCapOut g source := by
  unfold rowSum sumCapOut
  exact Finset.sum_le_sum (fun v _ => hfi.cap_le source v)

theorem rowSum_nonneg_src {g : Graph FlowEdge} {source sink : Nat}
    (hfi : FlowInv g source sink) :
    0 ≤ rowSum g.edges g.n_vertexes source := by
  unfold rowSum
  exact Finset.sum_nonneg (fun v _ => hfi.src_nonneg v)

end MaxFlowRs
namespace MaxFlowRs

theorem count_map_filter {α β : Type} [DecidableEq β] (f : α → β) :
    ∀ (l : List α) (x : β),
      (l.map f).count x = (l.filter (fun e => f e = x)).length
  | [], x => rfl
  | a :: rest, x => by
    rw [List.map_cons, List.filter_cons, List.count_cons]
    by_cases h : f a = x
    · rw [count_map_filter f rest x]
      simp [h]
    · rw [count_map_filter f rest x]
      simp [h]

theorem setRow_shape {E : Type} [Inhabited E] {n : Nat} {m : List (List E)}
    (hs : MShape n m) {a b : Nat} (ha : a < n) (x : E) :
    MShape n (m.set a ((m.getD a []).set b x)) := by
  obtain ⟨h1, h2⟩ := hs
  refine ⟨by simpa using h1, ?_⟩
  intro row hrow
  rcases List.mem_or_eq_of_mem_set hrow with hmem | heq
  · exact h2 row hmem
  · subst heq
    rw [List.length_set]
    exact h2 _ (getD_mem_of_lt _ _ _ (by omega))

theorem insertEdges_val {E : Type} [Inhabited E] {n : Nat} :
    ∀ {el : List (Nat × Nat × E)}
      {st st' : List (List Nat) × List (List E) × Nat},
    insertEdges n el st = some st' → MShape n st.2.1 → ∀ u v,
    mAt st'.2.1 u v = mAt st.2.1 u v ∨
      ∃ e ∈ el, e.1 = u ∧ e.2.1 = v ∧ mAt st'.2.1 u v = e.2.2 := by
  intro el
  induction el with
  | nil =>
    intro st st' h hs u v
    rw [insertEdges] at h
    cases h
    exact Or.inl rfl
  | cons e rest ih =>
    intro st st' h hs u v
    rw [insertEdges] at h
    by_cases hb : (e.1 < n && e.2.1 < n) = true
    · rw [if_pos hb] at h
      have hb1 : e.1 < n ∧ e.2.1 < n := by simpa using hb
      have hs1 : MShape n (st.2.1.set e.1 ((st.2.1.getD e.1 []).set e.2.1 e.2.2)) :=
        setRow_shape hs hb1.1 _
      rcases ih h hs1 u v with hsame | ⟨e', he', h1, h2, h3⟩
      · rw [hsame]
        by_cases hc : e.1 = u ∧ e.2.1 = v
        · obtain ⟨hcu, hcv⟩ := hc
          subst hcu
          subst hcv
          right
          refine ⟨e, List.mem_cons_self _ _, rfl, rfl, ?_⟩
          unfold mAt
          rw [getD_set_self _ _ _ _ (by rw [hs.1]; exact hb1.1),
            getD_set_self _ _ _ _ (by
              rw [hs.2 _ (getD_mem_of_lt _ _ _ (by rw [hs.1]; exact hb1.1))]
              exact hb1.2)]
        · left
          unfold mAt
          by_cases hu : e.1 = u
          · subst hu
            have hv : e.2.1 ≠ v := fun hv => hc ⟨rfl, hv⟩
            by_cases hl : e.1 < st.2.1.length
            · rw [getD_set_self _ _ _ _ hl, getD_set_ne _ _ _ _ _ hv]
            · rw [getD_set_oob _ _ _ _ _ (by omega)]
          · rw [getD_set_ne _ _ _ _ _ hu]
      · exact Or.inr ⟨e', List.mem_cons_of_mem _ he', h1, h2, h3⟩
    · rw [if_neg hb] at h
      cases h

theorem graphNew_val {E : Type} [Inhabited E] {vl : List Nat}
    {el : List (Nat × Nat × E)} {g : Graph E}
    (h : Graph.new vl el = some g) (u v : Nat) :
    edgeAt g u v = default ∨
      ∃ e ∈ el, e.1 = u ∧ e.2.1 = v ∧ edgeAt g u v = e.2.2 := by
  obtain ⟨hn, hins⟩ := graphNew_parts h
  rcases insertEdges_val hins (replicate_matrix_mshape _) u v with h1 | h1
  · left
    unfold edgeAt
    rw [show mAt g.edges u v = mAt (g.neighbors, g.edges, g.n_edges).2.1 u v from rfl, h1]
    exact mAt_replicate _ _ _
  · exact Or.inr h1

theorem residual_slot_zero {vl : List Nat} {el : List (Nat × Nat × FlowEdge)}
    {g : Graph FlowEdge} {u v : Nat} {c : FlowEdge}
    (hg : Graph.new vl (create_residual_edges el) = some g)
    (he : (u, v, c) ∈ el) : edgeAt g v u = FlowEdge.zero := by
  obtain ⟨hn, hins⟩ := graphNew_parts hg
  unfold create_residual_edges at hins
  rw [insertEdges_append] at hins
  rcases h1 : insertEdges vl.length el
      (List.replicate vl.length [],
       List.replicate vl.length (List.replicate vl.length default), 0) with _ | st1
  · rw [h1] at hins; cases hins
  · rw [h1] at hins
    have hsh : MShape vl.length st1.2.1 :=
      insertEdges_mshape h1 (replicate_matrix_mshape _)
    exact insertEdges_constWrite (u := v) (v := u) (c := FlowEdge.zero) hins hsh
      ⟨(v, u, FlowEdge.zero), List.mem_map.mpr ⟨(u, v, c), he, rfl⟩, rfl, rfl⟩
      (by
        intro f hf _
        obtain ⟨e1, _, hfe⟩ := List.mem_map.mp hf
        rw [← hfe])

theorem builtRow_mem {E : Type} [Inhabited E] {vl : List Nat}
    {el2 : List (Nat × Nat × E)} {g : Graph E}
    (hg : Graph.new vl el2 = some g) (w x : Nat) :
    x ∈ neighborsRow g w ↔ ∃ c, (w, x, c) ∈ el2 := by
  rw [graphNew_neighbors hg w]
  constructor
  · intro hx
    obtain ⟨e, he, hxe⟩ := List.mem_map.mp hx
    have hmem := List.mem_of_mem_filter he
    have hfe : e.1 = w := by simpa using (List.mem_filter.mp he).2
    refine ⟨e.2.2, ?_⟩
    rw [← hfe, ← hxe]
    exact hmem
  · rintro ⟨c, hc⟩
    refine List.mem_map.mpr ⟨(w, x, c), ?_, rfl⟩
    rw [List.mem_filter]
    exact ⟨hc, by simp⟩

theorem crel_mem {el : List (Nat × Nat × FlowEdge)} {w x : Nat} :
    (∃ c, (w, x, c) ∈ create_residual_edges el) ↔
      (∃ c, (w, x, c) ∈ el) ∨ (∃ c, (x, w, c) ∈ el) := by
  unfold create_residual_edges
  constructor
  · rintro ⟨c, hc⟩
    rcases List.mem_append.mp hc with h | h
    · exact Or.inl ⟨c, h⟩
    · obtain ⟨e, he, hee⟩ := List.mem_map.mp h
      right
      refine ⟨e.2.2, ?_⟩
      have h1 : e.2.1 = w := congrArg (fun q : Nat × Nat × FlowEdge => q.1) hee
      have h2 : e.1 = x := congrArg (fun q : Nat × Nat × FlowEdge => q.2.1) hee
      rw [← h2, ← h1]
      exact he
  · rintro (⟨c, hc⟩ | ⟨c, hc⟩)
    · exact ⟨c, List.mem_append_left _ hc⟩
    · exact ⟨FlowEdge.zero,
        List.mem_append_right _ (List.mem_map.mpr ⟨(x, w, c), hc, rfl⟩)⟩


theorem filter_pair_length {E : Type} (w x : Nat) :
    ∀ (l : List (Nat × Nat × E)),
      ((l.filter (fun e => e.1 = w)).filter (fun e => e.2.1 = x)).length =
      (l.filter (fun e => e.1 = w ∧ e.2.1 = x)).length
  | [] => rfl
  | e :: rest => by
    rw [List.filter_cons]
    by_cases h1 : e.1 = w
    · rw [if_pos (by simpa using h1), List.filter_cons]
      by_cases h2 : e.2.1 = x
      · rw [if_pos (by simpa using h2), List.filter_cons,
          if_pos (by simp [h1, h2]), List.length_cons, List.length_cons,
          filter_pair_length w x rest]
      · rw [if_neg (by simpa using h2), List.filter_cons,
          if_neg (by simp [h1, h2]), filter_pair_length w x rest]
    · rw [if_neg (by simpa using h1), List.filter_cons,
        if_neg (by simp [h1]), filter_pair_length w x rest]

theorem builtRow_count {E : Type} [Inhabited E] {vl : List Nat}
    {el2 : List (Nat × Nat × E)} {g : Graph E}
    (hg : Graph.new vl el2 = some g) (w x : Nat) :
    (neighborsRow g w).count x =
      (el2.filter (fun e => e.1 = w ∧ e.2.1 = x)).length := by
  rw [graphNew_neighbors hg w, count_map_filter]
  exact filter_pair_length w x el2

theorem crel_filter_length (el : List (Nat × Nat × FlowEdge)) (w x : Nat) :
    ((create_residual_edges el).filter
        (fun e => e.1 = w ∧ e.2.1 = x)).length =
      (el.filter (fun e => e.1 = w ∧ e.2.1 = x)).length +
      (el.filter (fun e => e.1 = x ∧ e.2.1 = w)).length := by
  unfold create_residual_edges
  rw [List.filter_append, List.length_append]
  congr 1
  induction el with
  | nil => rfl
  | cons e rest ih =>
    rw [List.map_cons, List.filter_cons, List.filter_cons]
    by_cases h1 : e.2.1 = w ∧ e.1 = x
    · rw [if_pos (by simp [h1.1, h1.2]), if_pos (by simp [h1.1, h1.2]),
        List.length_cons, List.length_cons, ih]
    · rw [if_neg (by simp only [decide_eq_true_eq]; tauto),
        if_neg (by simp only [decide_eq_true_eq]; tauto), ih]

theorem pair_count_le_one {E : Type} {el : List (Nat × Nat × E)}
    (hnd : (el.map (fun e => (e.1, e.2.1))).Nodup) (w x : Nat) :
    (el.filter (fun e => e.1 = w ∧ e.2.1 = x)).length ≤ 1 := by
  have h := List.nodup_iff_count_le_one.mp hnd (w, x)
  rw [count_map_filter] at h
  calc (el.filter (fun e => e.1 = w ∧ e.2.1 = x)).length
      = (el.filter (fun e => (e.1, e.2.1) = (w, x))).length := by
        congr 1
        apply List.filter_congr
        intro e _
        simp [Prod.ext_iff]
    _ ≤ 1 := h

theorem filter_pair_pos {E : Type} {el : List (Nat × Nat × E)} {w x : Nat}
    (h : 1 ≤ (el.filter (fun e => e.1 = w ∧ e.2.1 = x)).length) :
    ∃ c, (w, x, c) ∈ el := by
  have hpos : 0 < (el.filter (fun e => e.1 = w ∧ e.2.1 = x)).length := by omega
  obtain ⟨e, he⟩ := List.exists_mem_of_length_pos hpos
  have hm := List.mem_filter.mp he
  have hc : e.1 = w ∧ e.2.1 = x := by simpa using hm.2
  refine ⟨e.2.2, ?_⟩
  rw [← hc.1, ← hc.2]
  exact hm.1

theorem built_graphWF {vl : List Nat} {el : List (Nat × Nat × FlowEdge)}
    {g : Graph FlowEdge}
    (hg : Graph.new vl (create_residual_edges el) = some g)
    (hlen : vl.length < U32_MAX)
    (hcap : ∀ e ∈ el, 0 ≤ e.2.2.capacity)
    (hflow : ∀ e ∈ el, e.2.2.flow = 0)
    (hnd : (el.map (fun e => (e.1, e.2.1))).Nodup) :
    GraphWF g ∧ (∀ u v, (edgeAt g u v).flow = 0) ∧ g.n_vertexes = vl.length := by
  obtain ⟨hn, _⟩ := graphNew_parts hg
  have hflow0 : ∀ u v, (edgeAt g u v).flow = 0 := by
    intro u v
    rcases graphNew_val hg u v with h | ⟨e, he, h1, h2, h3⟩
    · rw [h]; rfl
    · rw [h3]
      unfold create_residual_edges at he
      rcases List.mem_append.mp he with h | h
      · exact hflow e h
      · obtain ⟨e1, _, hee⟩ := List.mem_map.mp h
        rw [← hee]
        rfl
  have hcap0 : ∀ u v, 0 ≤ (edgeAt g u v).capacity := by
    intro u v
    rcases graphNew_val hg u v with h | ⟨e, he, h1, h2, h3⟩
    · rw [h]; exact le_refl 0
    · rw [h3]
      unfold create_residual_edges at he
      rcases List.mem_append.mp he with h | h
      · exact hcap e h
      · obtain ⟨e1, _, hee⟩ := List.mem_map.mp h
        rw [← hee]
        exact le_refl 0
  refine ⟨⟨?_, graphNew_mshape hg, ?_, ?_, hcap0, ?_, ?_⟩, hflow0, hn⟩
  · rw [hn]; exact hlen
  · intro u v hv
    obtain ⟨c, hc⟩ := (builtRow_mem hg u v).mp hv
    exact (graphNew_bounds hg _ hc).2
  · intro u v hv
    exact (builtRow_mem hg v u).mpr
      (crel_mem.mpr (Or.symm (crel_mem.mp ((builtRow_mem hg u v).mp hv))))
  · intro u v hne
    by_contra hv
    apply hne
    rw [graphNew_noWrite hg (fun e he hc =>
      hv ((builtRow_mem hg u v).mpr ⟨e.2.2, by rw [← hc.1, ← hc.2]; exact he⟩))]
    rfl
  · intro u v h2
    rw [builtRow_count hg, crel_filter_length] at h2
    have hA := pair_count_le_one hnd u v
    have hB := pair_count_le_one hnd v u
    obtain ⟨c2, hc2⟩ := @filter_pair_pos FlowEdge el v u (by omega)
    rw [residual_slot_zero hg hc2]
    rfl

theorem zeroFlow_flowInv {g : Graph FlowEdge} (source sink : Nat)
    (hwf : GraphWF g) (h0 : ∀ u v, (edgeAt g u v).flow = 0) :
    FlowInv g source sink := by
  refine ⟨?_, ?_, ?_, ?_, ?_⟩
  · intro u v
    rw [h0, h0]
    rfl
  · intro u v
    rw [h0]
    exact hwf.cap_nonneg u v
  · intro v
    rw [h0]
  · intro u v hne
    exact absurd (h0 u v) hne
  · intro w hw hws hwt
    unfold rowSum
    apply Finset.sum_eq_zero
    intro v _
    exact h0 w v

end MaxFlowRs
namespace MaxFlowRs

theorem ap_oob {g : Graph FlowEdge} {source sink : Nat} {search : Search}
    (h : ¬ source < g.n_vertexes) :
    augmenting_path g source sink search = none := by
  unfold augmenting_path
  rw [GraphIterator.new.eq_def, if_neg h]

theorem max_flow_trace_spec {source sink : Nat} {search : Search} :
    ∀ (fuel : Nat) (g : Graph FlowEdge) (v : Int) (g1 : Graph FlowEdge)
      (bs : List Int),
    GraphWF g → FlowInv g source sink → source ≠ sink →
    max_flow_trace fuel g source sink search = some (v, g1, bs) →
    GraphWF g1 ∧ FlowInv g1 source sink ∧
    v = total_from_source g1 source ∧
    rowSum g1.edges g1.n_vertexes source =
      rowSum g.edges g.n_vertexes source + bs.sum ∧
    (∀ b ∈ bs, 1 ≤ b) ∧
    g1.n_vertexes = g.n_vertexes ∧
    (∀ u w, (edgeAt g1 u w).capacity = (edgeAt g u w).capacity) ∧
    (∃ S : Finset Nat, ClosedVisited g1 flow_predicate source sink S) ∧
    max_flow fuel g source sink search = some (v, g1) := by
  intro fuel
  induction fuel with
  | zero =>
    intro g v g1 bs _ _ _ h
    cases h
  | succ fuel ih =>
    intro g v g1 bs hwf hfi hst h
    have hsrc : source < g.n_vertexes := by
      by_contra hs
      rw [max_flow_trace, ap_oob hs] at h
      cases h
    obtain ⟨r, hap, hgood, hclosed⟩ :=
      augmenting_path_spec hwf.n_small hwf.nb_lt hsrc
    rw [max_flow_trace, hap] at h
    cases r with
    | none =>
      simp only [Option.some.injEq, Prod.mk.injEq] at h
      obtain ⟨h1, h2, h3⟩ := h
      subst h1
      subst h2
      subst h3
      refine ⟨hwf, hfi, rfl, by simp, by simp, rfl, fun u w => rfl,
        hclosed rfl, ?_⟩
      rw [max_flow, hap]
    | some path =>
      dsimp only at h
      have hgp := hgood path rfl
      obtain ⟨hwf2, hfi2, hn2, hnb2, hcap2, hb1, hrow⟩ :=
        augment_preserves hwf hfi hgp
      rcases htr : max_flow_trace fuel (augmentAlong g path) source sink search
        with _ | ⟨v1, g2, bs1⟩
      · rw [htr] at h
        cases h
      · rw [htr] at h
        simp only [Option.some.injEq, Prod.mk.injEq] at h
        obtain ⟨rfl, rfl, rfl⟩ := h
        obtain ⟨A1, A2, A3, A4, A5, A6, A7, A8, A9⟩ :=
          ih (augmentAlong g path) v1 g2 bs1 hwf2 hfi2 hst htr
        refine ⟨A1, A2, A3, ?_, ?_, ?_, ?_, A8, ?_⟩
        · rw [A4, hn2, hrow hst, List.sum_cons]
          ring
        · intro b hb
          rcases List.mem_cons.mp hb with rfl | hb1
          · exact hb1
          · exact A5 b hb1
        · rw [A6, hn2]
        · intro u w
          rw [A7, hcap2]
        · rw [max_flow, hap]
          exact A9

theorem max_flow_steps_spec {source sink : Nat} {search : Search} :
    ∀ (k : Nat) (g g1 : Graph FlowEdge),
    GraphWF g → FlowInv g source sink →
    max_flow_steps k g source sink search = some g1 →
    GraphWF g1 ∧ FlowInv g1 source sink ∧
    (∀ u w, (edgeAt g1 u w).capacity = (edgeAt g u w).capacity)
  | 0, g, g1, hwf, hfi, h => by
    cases h
    exact ⟨hwf, hfi, fun u w => rfl⟩
  | k + 1, g, g1, hwf, hfi, h => by
    rw [max_flow_steps] at h
    rcases hap : augmenting_path g source sink search with _ | op
    · rw [hap] at h
      cases h
    · rw [hap] at h
      cases op with
      | none => cases h
      | some path =>
        have hsrc : source < g.n_vertexes := by
          by_contra hs
          rw [ap_oob hs] at hap
          cases hap
        obtain ⟨r, hap2, hgood, _⟩ :=
          augmenting_path_spec hwf.n_small hwf.nb_lt hsrc
        rw [hap] at hap2
        injection hap2 with hr
        subst hr
        have hgp := hgood path rfl
        obtain ⟨hwf2, hfi2, _, _, hcap2, _, _⟩ := augment_preserves hwf hfi hgp
        obtain ⟨B1, B2, B3⟩ :=
          max_flow_steps_spec k (augmentAlong g path) g1 hwf2 hfi2 h
        exact ⟨B1, B2, fun u w => by rw [B3, hcap2]⟩

theorem max_flow_terminates {source sink : Nat} {search : Search} :
    ∀ (k : Nat) (g : Graph FlowEdge),
    GraphWF g → FlowInv g source sink → source ≠ sink →
    source < g.n_vertexes →
    (sumCapOut g source - rowSum g.edges g.n_vertexes source).toNat < k →
    ∃ v g1, max_flow k g source sink search = some (v, g1)
  | 0, g, _, _, _, _, hk => absurd hk (by omega)
  | k + 1, g, hwf, hfi, hst, hsrc, hk => by
    obtain ⟨r, hap, hgood, _⟩ :=
      augmenting_path_spec hwf.n_small hwf.nb_lt hsrc
    cases r with
    | none =>
      refine ⟨total_from_source g source, g, ?_⟩
      rw [max_flow, hap]
    | some path =>
      have hgp := hgood path rfl
      obtain ⟨hwf2, hfi2, hn2, _, hcap2, hb1, hrow⟩ :=
        augment_preserves hwf hfi hgp
      have hscap : sumCapOut (augmentAlong g path) source = sumCapOut g source := by
        unfold sumCapOut
        rw [hn2]
        exact Finset.sum_congr rfl (fun w _ => hcap2 source w)
      have hrow2 := hrow hst
      have hle := rowSum_le_sumCap hfi2
      rw [hn2, hscap, hrow2] at hle
      obtain ⟨v, g1, hmf⟩ := max_flow_terminates k (augmentAlong g path)
        hwf2 hfi2 hst (by rw [hn2]; exact hsrc)
        (by rw [hn2, hscap, hrow2]; omega)
      exact ⟨v, g1, by rw [max_flow, hap]; exact hmf⟩

end MaxFlowRs
namespace MaxFlowRs

theorem pair_sum_antisym {g : Graph FlowEdge} {source sink : Nat}
    (hfi : FlowInv g source sink) (T : Finset Nat) :
    ∑ u ∈ T, ∑ v ∈ T, (edgeAt g u v).flow = 0 := by
  have h : ∑ u ∈ T, ∑ v ∈ T, (edgeAt g u v).flow
      = -∑ u ∈ T, ∑ v ∈ T, (edgeAt g u v).flow := by
    calc ∑ u ∈ T, ∑ v ∈ T, (edgeAt g u v).flow
        = ∑ v ∈ T, ∑ u ∈ T, (edgeAt g u v).flow := Finset.sum_comm
      _ = ∑ v ∈ T, ∑ u ∈ T, -(edgeAt g v u).flow :=
          Finset.sum_congr rfl (fun v _ =>
            Finset.sum_congr rfl (fun u _ => hfi.antisym u v))
      _ = -∑ v ∈ T, ∑ u ∈ T, (edgeAt g v u).flow := by
          simp only [Finset.sum_neg_distrib]
  omega

theorem rowSum_eq_crossing {g : Graph FlowEdge} {source sink : Nat}
    (hfi : FlowInv g source sink) {S : Finset Nat}
    (hs : source ∈ S) (ht : sink ∉ S) (hb : ∀ u ∈ S, u < g.n_vertexes) :
    rowSum g.edges g.n_vertexes source =
      ∑ u ∈ S, ∑ v ∈ Finset.range g.n_vertexes \ S, (edgeAt g u v).flow := by
  have hsub : S ⊆ Finset.range g.n_vertexes :=
    fun u hu => Finset.mem_range.mpr (hb u hu)
  have hrow : ∀ u ∈ S, rowSum g.edges g.n_vertexes u =
      ∑ v ∈ S, (edgeAt g u v).flow +
      ∑ v ∈ Finset.range g.n_vertexes \ S, (edgeAt g u v).flow := by
    intro u _
    show (∑ v ∈ Finset.range g.n_vertexes, (edgeAt g u v).flow) = _
    rw [← Finset.sum_sdiff hsub]
    exact add_comm _ _
  have hall : ∑ u ∈ S, rowSum g.edges g.n_vertexes u =
      rowSum g.edges g.n_vertexes source := by
    refine Finset.sum_eq_single_of_mem source hs ?_
    intro b hb1 hbne
    exact hfi.conserve b (hb b hb1) hbne (fun hbt => ht (hbt ▸ hb1))
  calc rowSum g.edges g.n_vertexes source
      = ∑ u ∈ S, rowSum g.edges g.n_vertexes u := hall.symm
    _ = ∑ u ∈ S, (∑ v ∈ S, (edgeAt g u v).flow +
        ∑ v ∈ Finset.range g.n_vertexes \ S, (edgeAt g u v).flow) :=
          Finset.sum_congr rfl hrow
    _ = (∑ u ∈ S, ∑ v ∈ S, (edgeAt g u v).flow) +
        ∑ u ∈ S, ∑ v ∈ Finset.range g.n_vertexes \ S, (edgeAt g u v).flow :=
          Finset.sum_add_distrib
    _ = ∑ u ∈ S, ∑ v ∈ Finset.range g.n_vertexes \ S, (edgeAt g u v).flow := by
          rw [pair_sum_antisym hfi S, zero_add]

theorem rowSum_le_cutCap {g : Graph FlowEdge} {source sink : Nat}
    (hfi : FlowInv g source sink) {S : Finset Nat}
    (hs : source ∈ S) (ht : sink ∉ S) (hb : ∀ u ∈ S, u < g.n_vertexes) :
    rowSum g.edges g.n_vertexes source ≤ cutCap g S := by
  rw [rowSum_eq_crossing hfi hs ht hb]
  unfold cutCap
  exact Finset.sum_le_sum (fun u _ =>
    Finset.sum_le_sum (fun v _ => hfi.cap_le u v))

theorem rowSum_eq_cutCap {g : Graph FlowEdge} {source sink : Nat}
    (hwf : GraphWF g) (hfi : FlowInv g source sink) {S : Finset Nat}
    (hcv : ClosedVisited g flow_predicate source sink S) :
    rowSum g.edges g.n_vertexes source = cutCap g S := by
  obtain ⟨hs, ht, hb, hclosed⟩ := hcv
  rw [rowSum_eq_crossing hfi hs ht hb]
  unfold cutCap
  refine Finset.sum_congr rfl (fun u hu => Finset.sum_congr rfl (fun v hv => ?_))
  have hvS : v ∉ S := (Finset.mem_sdiff.mp hv).2
  by_cases hnb : v ∈ neighborsRow g u
  · by_cases hpred : flow_predicate (edgeAt g u v) = true
    · exact absurd (hclosed u hu v hnb hpred) hvS
    · have h1 : ¬ ((edgeAt g u v).capacity - (edgeAt g u v).flow > 0) := by
        simpa [flow_predicate] using hpred
      have h2 := hfi.cap_le u v
      omega
  · have hf : (edgeAt g u v).flow = 0 := by
      by_contra hne
      exact hnb (hfi.support u v hne)
    have hc : (edgeAt g u v).capacity = 0 := by
      by_contra hne
      exact hnb (hwf.cap_edge u v hne)
    rw [hf, hc]

theorem cutCap_congr {g1 g2 : Graph FlowEdge} {S : Finset Nat}
    (hn : g1.n_vertexes = g2.n_vertexes)
    (hc : ∀ u v, (edgeAt g1 u v).capacity = (edgeAt g2 u v).capacity) :
    cutCap g1 S = cutCap g2 S := by
  unfold cutCap
  rw [hn]
  exact Finset.sum_congr rfl (fun u _ =>
    Finset.sum_congr rfl (fun v _ => hc u v))

theorem max_flow_spec {source sink : Nat} {search : Search} :
    ∀ (fuel : Nat) (g : Graph FlowEdge) (v : Int) (g1 : Graph FlowEdge),
    GraphWF g → FlowInv g source sink →
    max_flow fuel g source sink search = some (v, g1) →
    GraphWF g1 ∧ FlowInv g1 source sink ∧
    v = total_from_source g1 source ∧
    g1.n_vertexes = g.n_vertexes ∧
    (∀ u w, (edgeAt g1 u w).capacity = (edgeAt g u w).capacity) ∧
    (∃ S : Finset Nat, ClosedVisited g1 flow_predicate source sink S) := by
  intro fuel
  induction fuel with
  | zero =>
    intro g v g1 _ _ h
    cases h
  | succ fuel ih =>
    intro g v g1 hwf hfi h
    have hsrc : source < g.n_vertexes := by
      by_contra hs
      rw [max_flow, ap_oob hs] at h
      cases h
    obtain ⟨r, hap, hgood, hclosed⟩ :=
      augmenting_path_spec hwf.n_small hwf.nb_lt hsrc
    rw [max_flow, hap] at h
    cases r with
    | none =>
      simp only [Option.some.injEq, Prod.mk.injEq] at h
      obtain ⟨h1, h2⟩ := h
      subst h1
      subst h2
      exact ⟨hwf, hfi, rfl, rfl, fun u w => rfl, hclosed rfl⟩
    | some path =>
      dsimp only at h
      have hgp := hgood path rfl
      obtain ⟨hwf2, hfi2, hn2, hnb2, hcap2, hb1, hrow⟩ :=
        augment_preserves hwf hfi hgp
      obtain ⟨A1, A2, A3, A4, A5, A6⟩ :=
        ih (augmentAlong g path) v g1 hwf2 hfi2 h
      refine ⟨A1, A2, A3, by rw [A4, hn2], ?_, A6⟩
      intro u w
      rw [A5, hcap2]

theorem length_le_sum :
    ∀ (bs : List Int), (∀ b ∈ bs, 1 ≤ b) → (bs.length : Int) ≤ bs.sum
  | [], _ => by simp
  | b :: rest, h => by
    rw [List.sum_cons, List.length_cons]
    have h1 := h b (List.mem_cons_self _ _)
    have h2 := length_le_sum rest (fun x hx => h x (List.mem_cons_of_mem _ hx))
    push_cast
    omega

end MaxFlowRs
namespace MaxFlowRs

/-- Claim C2 amended: on graphs built by create_residual_edges and Graph::new
from a duplicate-free edge list with non-negative capacities and zero initial
flows, every matrix slot with nonzero capacity satisfies 0 <= flow <= capacity
before max_flow, after every augmentation of the loop, and in the graph
max_flow returns; synthesized residual slots (capacity 0) instead carry
non-positive flow, which is what the counterexample exhibits. -/
theorem C2_amended {vl : List Nat} {el : List (Nat × Nat × FlowEdge)}
    {g : Graph FlowEdge} {source sink : Nat} {search : Search}
    (hg : Graph.new vl (create_residual_edges el) = some g)
    (hlen : vl.length < U32_MAX)
    (hcap : ∀ e ∈ el, 0 ≤ e.2.2.capacity)
    (hflow : ∀ e ∈ el, e.2.2.flow = 0)
    (hnd : (el.map (fun e => (e.1, e.2.1))).Nodup) :
    (∀ u w, (edgeAt g u w).capacity ≠ 0 →
      0 ≤ (edgeAt g u w).flow ∧
      (edgeAt g u w).flow ≤ (edgeAt g u w).capacity) ∧
    (∀ k g1, max_flow_steps k g source sink search = some g1 →
      ∀ u w, (edgeAt g1 u w).capacity ≠ 0 →
        0 ≤ (edgeAt g1 u w).flow ∧
        (edgeAt g1 u w).flow ≤ (edgeAt g1 u w).capacity) ∧
    (∀ fuel v g1, max_flow fuel g source sink search = some (v, g1) →
      ∀ u w, (edgeAt g1 u w).capacity ≠ 0 →
        0 ≤ (edgeAt g1 u w).flow ∧
        (edgeAt g1 u w).flow ≤ (edgeAt g1 u w).capacity) := by
  obtain ⟨hwf, hflow0, hn⟩ := built_graphWF hg hlen hcap hflow hnd
  have hfi := zeroFlow_flowInv source sink hwf hflow0
  have capRev : ∀ u w, (edgeAt g u w).capacity ≠ 0 →
      (edgeAt g w u).capacity = 0 := by
    intro u w hne
    rcases graphNew_val hg u w with hdef | ⟨e, he, h1, h2, h3⟩
    · exact absurd (by rw [hdef]; rfl) hne
    · unfold create_residual_edges at he
      rcases List.mem_append.mp he with hel | hres
      · have hmem : (u, w, e.2.2) ∈ el := by
          rw [← h1, ← h2]
          exact hel
        rw [residual_slot_zero hg hmem]
        rfl
      · obtain ⟨e1, _, hee⟩ := List.mem_map.mp hres
        exfalso
        apply hne
        rw [h3, ← hee]
        rfl
  have key : ∀ g2 : Graph FlowEdge, FlowInv g2 source sink →
      (∀ u w, (edgeAt g2 u w).capacity = (edgeAt g u w).capacity) →
      ∀ u w, (edgeAt g2 u w).capacity ≠ 0 →
        0 ≤ (edgeAt g2 u w).flow ∧
        (edgeAt g2 u w).flow ≤ (edgeAt g2 u w).capacity := by
    intro g2 hfi2 hcaps u w hne
    refine ⟨?_, hfi2.cap_le u w⟩
    have h1 := hfi2.cap_le w u
    have h2 : (edgeAt g2 w u).capacity = 0 := by
      rw [hcaps]
      exact capRev u w (by rw [← hcaps u w]; exact hne)
    have h3 := hfi2.antisym u w
    omega
  refine ⟨key g hfi (fun u w => rfl), ?_, ?_⟩
  · intro k g1 hk
    obtain ⟨B1, B2, B3⟩ := max_flow_steps_spec k g g1 hwf hfi hk
    exact key g1 B2 B3
  · intro fuel v g1 hmf
    obtain ⟨A1, A2, A3, A4, A5, A6⟩ := max_flow_spec fuel g v g1 hwf hfi hmf
    exact key g1 A2 A5

/-- Witness for C2 amended on the graph built from the single unit edge 0 to 1
with its residual: the explicit slot satisfies the bounds initially. -/
theorem C2_amended_witness :
    (0 : Int) ≤ (edgeAt (⟨[[FlowEdge.zero, ⟨1, 0⟩],
        [FlowEdge.zero, FlowEdge.zero]], [[1], [0]], 2, 2⟩ : Graph FlowEdge)
        0 1).flow ∧
    (edgeAt (⟨[[FlowEdge.zero, ⟨1, 0⟩], [FlowEdge.zero, FlowEdge.zero]],
        [[1], [0]], 2, 2⟩ : Graph FlowEdge) 0 1).flow ≤
      (edgeAt (⟨[[FlowEdge.zero, ⟨1, 0⟩], [FlowEdge.zero, FlowEdge.zero]],
        [[1], [0]], 2, 2⟩ : Graph FlowEdge) 0 1).capacity :=
  (@C2_amended [0, 1] [(0, 1, ⟨1, 0⟩)]
    ⟨[[FlowEdge.zero, ⟨1, 0⟩], [FlowEdge.zero, FlowEdge.zero]], [[1], [0]], 2, 2⟩
    0 1 Search.Bfs (by decide) (by decide) (by decide) (by decide)
    (by decide)).1 0 1 (by decide)

/-- Claim C3 amended: on graphs built by create_residual_edges and Graph::new
from a duplicate-free edge list with non-negative capacities and zero initial
flows, whenever both search modes return (source distinct from sink and in
range), they return the same total flow value; with fuel one more than the
source's outgoing capacity both modes do return.  Duplicate pairs in the edge
list break the agreement, as the counterexample shows. -/
theorem C3_amended {vl : List Nat} {el : List (Nat × Nat × FlowEdge)}
    {g : Graph FlowEdge} {source sink : Nat}
    (hg : Graph.new vl (create_residual_edges el) = some g)
    (hlen : vl.length < U32_MAX)
    (hcap : ∀ e ∈ el, 0 ≤ e.2.2.capacity)
    (hflow : ∀ e ∈ el, e.2.2.flow = 0)
    (hnd : (el.map (fun e => (e.1, e.2.1))).Nodup)
    (hst : source ≠ sink) (hsrc : source < g.n_vertexes) :
    (∀ f1 f2 v1 v2 g1 g2,
        max_flow f1 g source sink Search.Bfs = some (v1, g1) →
        max_flow f2 g source sink Search.Dfs = some (v2, g2) → v1 = v2) ∧
    (∃ v g1 g2,
        max_flow ((sumCapOut g source).toNat + 1) g source sink Search.Bfs =
          some (v, g1) ∧
        max_flow ((sumCapOut g source).toNat + 1) g source sink Search.Dfs =
          some (v, g2)) := by
  obtain ⟨hwf, hflow0, hn⟩ := built_graphWF hg hlen hcap hflow hnd
  have hfi := zeroFlow_flowInv source sink hwf hflow0
  have hrow0 : rowSum g.edges g.n_vertexes source = 0 :=
    Finset.sum_eq_zero (fun w _ => hflow0 source w)
  have agree : ∀ f1 f2 v1 v2 g1 g2,
      max_flow f1 g source sink Search.Bfs = some (v1, g1) →
      max_flow f2 g source sink Search.Dfs = some (v2, g2) → v1 = v2 := by
    intro f1 f2 v1 v2 g1 g2 hB hD
    obtain ⟨B1, B2, B3, B4, B5, B6⟩ := max_flow_spec f1 g v1 g1 hwf hfi hB
    obtain ⟨D1, D2, D3, D4, D5, D6⟩ := max_flow_spec f2 g v2 g2 hwf hfi hD
    obtain ⟨S1, hS1⟩ := B6
    obtain ⟨S2, hS2⟩ := D6
    have hv1 : v1 = cutCap g1 S1 := by
      rw [B3, total_eq_rowSum B1 B2, rowSum_eq_cutCap B1 B2 hS1]
    have hv2 : v2 = cutCap g2 S2 := by
      rw [D3, total_eq_rowSum D1 D2, rowSum_eq_cutCap D1 D2 hS2]
    have hS1b : ∀ u ∈ S1, u < g2.n_vertexes := by
      intro u hu
      have h1 := hS1.2.2.1 u hu
      rw [B4] at h1
      rw [D4]
      exact h1
    have hS2b : ∀ u ∈ S2, u < g1.n_vertexes := by
      intro u hu
      have h1 := hS2.2.2.1 u hu
      rw [D4] at h1
      rw [B4]
      exact h1
    have h21 : rowSum g2.edges g2.n_vertexes source ≤ cutCap g2 S1 :=
      rowSum_le_cutCap D2 hS1.1 hS1.2.1 hS1b
    have h12 : rowSum g1.edges g1.n_vertexes source ≤ cutCap g1 S2 :=
      rowSum_le_cutCap B2 hS2.1 hS2.2.1 hS2b
    have hcc1 : cutCap g2 S1 = cutCap g1 S1 :=
      cutCap_congr (by rw [B4, D4]) (fun u w => by rw [B5, D5])
    have hcc2 : cutCap g1 S2 = cutCap g2 S2 :=
      cutCap_congr (by rw [B4, D4]) (fun u w => by rw [B5, D5])
    have hv1r : v1 = rowSum g1.edges g1.n_vertexes source := by
      rw [B3, total_eq_rowSum B1 B2]
    have hv2r : v2 = rowSum g2.edges g2.n_vertexes source := by
      rw [D3, total_eq_rowSum D1 D2]
    omega
  refine ⟨agree, ?_⟩
  obtain ⟨vB, gB, hB⟩ := @max_flow_terminates source sink Search.Bfs
    ((sumCapOut g source).toNat + 1) g hwf hfi hst hsrc
    (by rw [hrow0]; omega)
  obtain ⟨vD, gD, hD⟩ := @max_flow_terminates source sink Search.Dfs
    ((sumCapOut g source).toNat + 1) g hwf hfi hst hsrc
    (by rw [hrow0]; omega)
  refine ⟨vB, gB, gD, hB, ?_⟩
  rw [agree _ _ vB vD gB gD hB hD]
  exact hD

/-- Witness for C3 amended on the graph built from the single unit edge 0 to 1
with its residual: both modes return with the computed fuel and agree. -/
theorem C3_amended_witness :
    ∃ v g1 g2,
      max_flow ((sumCapOut (⟨[[FlowEdge.zero, ⟨1, 0⟩],
          [FlowEdge.zero, FlowEdge.zero]], [[1], [0]], 2, 2⟩ : Graph FlowEdge)
          0).toNat + 1)
        (⟨[[FlowEdge.zero, ⟨1, 0⟩], [FlowEdge.zero, FlowEdge.zero]],
          [[1], [0]], 2, 2⟩ : Graph FlowEdge) 0 1 Search.Bfs = some (v, g1) ∧
      max_flow ((sumCapOut (⟨[[FlowEdge.zero, ⟨1, 0⟩],
          [FlowEdge.zero, FlowEdge.zero]], [[1], [0]], 2, 2⟩ : Graph FlowEdge)
          0).toNat + 1)
        (⟨[[FlowEdge.zero, ⟨1, 0⟩], [FlowEdge.zero, FlowEdge.zero]],
          [[1], [0]], 2, 2⟩ : Graph FlowEdge) 0 1 Search.Dfs = some (v, g2) :=
  (@C3_amended [0, 1] [(0, 1, ⟨1, 0⟩)]
    ⟨[[FlowEdge.zero, ⟨1, 0⟩], [FlowEdge.zero, FlowEdge.zero]], [[1], [0]], 2, 2⟩
    0 1 (by decide) (by decide) (by decide) (by decide) (by decide) (by decide)
    (by decide)).2

/-- Claim C4 amended: on graphs built by create_residual_edges and Graph::new
from a duplicate-free edge list with non-negative capacities and zero initial
flows, and with source distinct from sink and in range, every augmentation the
loop performs pushes a bottleneck of at least 1, the number of augmentations
is at most the sum of capacities out of the source, and the loop terminates
within that many iterations; when source equals sink the loop never
terminates, as the counterexample shows. -/
theorem C4_amended {vl : List Nat} {el : List (Nat × Nat × FlowEdge)}
    {g : Graph FlowEdge} {source sink : Nat} {search : Search}
    (hg : Graph.new vl (create_residual_edges el) = some g)
    (hlen : vl.length < U32_MAX)
    (hcap : ∀ e ∈ el, 0 ≤ e.2.2.capacity)
    (hflow : ∀ e ∈ el, e.2.2.flow = 0)
    (hnd : (el.map (fun e => (e.1, e.2.1))).Nodup)
    (hst : source ≠ sink) (hsrc : source < g.n_vertexes) :
    (∀ fuel v g1 bs,
      max_flow_trace fuel g source sink search = some (v, g1, bs) →
      (∀ b ∈ bs, 1 ≤ b) ∧ (bs.length : Int) ≤ sumCapOut g source) ∧
    ∃ v g1, max_flow ((sumCapOut g source).toNat + 1) g source sink search =
      some (v, g1) := by
  obtain ⟨hwf, hflow0, hn⟩ := built_graphWF hg hlen hcap hflow hnd
  have hfi := zeroFlow_flowInv source sink hwf hflow0
  have hrow0 : rowSum g.edges g.n_vertexes source = 0 :=
    Finset.sum_eq_zero (fun w _ => hflow0 source w)
  refine ⟨?_, ?_⟩
  · intro fuel v g1 bs htr
    obtain ⟨A1, A2, A3, A4, A5, A6, A7, A8, A9⟩ :=
      max_flow_trace_spec fuel g v g1 bs hwf hfi hst htr
    refine ⟨A5, ?_⟩
    have hlen1 := length_le_sum bs A5
    have hle := rowSum_le_sumCap A2
    have hscap : sumCapOut g1 source = sumCapOut g source := by
      unfold sumCapOut
      rw [A6]
      exact Finset.sum_congr rfl (fun w _ => A7 source w)
    rw [hscap, A4, hrow0, zero_add] at hle
    omega
  · exact @max_flow_terminates source sink search
      ((sumCapOut g source).toNat + 1) g hwf hfi hst hsrc
      (by rw [hrow0]; omega)

/-- Witness for C4 amended on the graph built from the single unit edge 0 to 1
with its residual: max_flow terminates within the capacity bound. -/
theorem C4_amended_witness :
    ∃ v g1,
      max_flow ((sumCapOut (⟨[[FlowEdge.zero, ⟨1, 0⟩],
          [FlowEdge.zero, FlowEdge.zero]], [[1], [0]], 2, 2⟩ : Graph FlowEdge)
          0).toNat + 1)
        (⟨[[FlowEdge.zero, ⟨1, 0⟩], [FlowEdge.zero, FlowEdge.zero]],
          [[1], [0]], 2, 2⟩ : Graph FlowEdge) 0 1 Search.Bfs = some (v, g1) :=
  (@C4_amended [0, 1] [(0, 1, ⟨1, 0⟩)]
    ⟨[[FlowEdge.zero, ⟨1, 0⟩], [FlowEdge.zero, FlowEdge.zero]], [[1], [0]], 2, 2⟩
    0 1 Search.Bfs (by decide) (by decide) (by decide) (by decide) (by decide)
    (by decide) (by decide)).2

/-- Claim C5: after max_flow completes on a graph built by
create_residual_edges and Graph::new from a duplicate-free edge list with
non-negative capacities and zero initial flows, every vertex other than the
source and the sink has equal outgoing and incoming flow sums over the edge
matrix. -/
theorem C5_conservation {vl : List Nat} {el : List (Nat × Nat × FlowEdge)}
    {g : Graph FlowEdge} {source sink : Nat} {search : Search}
    (hg : Graph.new vl (create_residual_edges el) = some g)
    (hlen : vl.length < U32_MAX)
    (hcap : ∀ e ∈ el, 0 ≤ e.2.2.capacity)
    (hflow : ∀ e ∈ el, e.2.2.flow = 0)
    (hnd : (el.map (fun e => (e.1, e.2.1))).Nodup)
    {fuel : Nat} {v : Int} {g1 : Graph FlowEdge}
    (h : max_flow fuel g source sink search = some (v, g1)) :
    ∀ w, w < g1.n_vertexes → w ≠ source → w ≠ sink →
      rowSum g1.edges g1.n_vertexes w = colSum g1.edges g1.n_vertexes w := by
  obtain ⟨hwf, hflow0, hn⟩ := built_graphWF hg hlen hcap hflow hnd
  have hfi := zeroFlow_flowInv source sink hwf hflow0
  obtain ⟨A1, A2, A3, A4, A5, A6⟩ := max_flow_spec fuel g v g1 hwf hfi h
  intro w hw hws hwt
  rw [colSum_eq_neg_rowSum A2 w, A2.conserve w hw hws hwt]
  simp

/-- Witness for C5 on the two-edge path graph 0 to 1 to 2 built with
residuals: after max_flow the interior vertex 1 conserves flow. -/
theorem C5_conservation_witness :
    rowSum (⟨[[FlowEdge.zero, ⟨1, 1⟩, FlowEdge.zero],
        [⟨0, -1⟩, FlowEdge.zero, ⟨1, 1⟩],
        [FlowEdge.zero, ⟨0, -1⟩, FlowEdge.zero]],
        [[1], [2, 0], [1]], 4, 3⟩ : Graph FlowEdge).edges
      (⟨[[FlowEdge.zero, ⟨1, 1⟩, FlowEdge.zero],
        [⟨0, -1⟩, FlowEdge.zero, ⟨1, 1⟩],
        [FlowEdge.zero, ⟨0, -1⟩, FlowEdge.zero]],
        [[1], [2, 0], [1]], 4, 3⟩ : Graph FlowEdge).n_vertexes 1 =
    colSum (⟨[[FlowEdge.zero, ⟨1, 1⟩, FlowEdge.zero],
        [⟨0, -1⟩, FlowEdge.zero, ⟨1, 1⟩],
        [FlowEdge.zero, ⟨0, -1⟩, FlowEdge.zero]],
        [[1], [2, 0], [1]], 4, 3⟩ : Graph FlowEdge).edges
      (⟨[[FlowEdge.zero, ⟨1, 1⟩, FlowEdge.zero],
        [⟨0, -1⟩, FlowEdge.zero, ⟨1, 1⟩],
        [FlowEdge.zero, ⟨0, -1⟩, FlowEdge.zero]],
        [[1], [2, 0], [1]], 4, 3⟩ : Graph FlowEdge).n_vertexes 1 :=
  (@C5_conservation [0, 1, 2] [(0, 1, ⟨1, 0⟩), (1, 2, ⟨1, 0⟩)]
    ⟨[[FlowEdge.zero, ⟨1, 0⟩, FlowEdge.zero],
      [FlowEdge.zero, FlowEdge.zero, ⟨1, 0⟩],
      [FlowEdge.zero, FlowEdge.zero, FlowEdge.zero]],
      [[1], [2, 0], [1]], 4, 3⟩
    0 2 Search.Bfs (by decide) (by decide) (by decide) (by decide) (by decide)
    5 1
    ⟨[[FlowEdge.zero, ⟨1, 1⟩, FlowEdge.zero],
      [⟨0, -1⟩, FlowEdge.zero, ⟨1, 1⟩],
      [FlowEdge.zero, ⟨0, -1⟩, FlowEdge.zero]],
      [[1], [2, 0], [1]], 4, 3⟩
    (by decide)) 1 (by decide) (by decide) (by decide)

/-- Claim C6 is refuted on a graph built with residual pairing from an edge
list that repeats the pair (0, 1): the value max_flow returns is 2, the sum
over the source's adjacency row with nonzero capacity counted per occurrence,
while the bottlenecks pushed over all augmentations sum to 1. -/
theorem C6_counterexample :
    (Graph.new [0, 1]
      (create_residual_edges [(0, 1, ⟨1, 0⟩), (0, 1, ⟨1, 0⟩)])).bind
      (fun g => (max_flow_trace 5 g 0 1 .Bfs).map (fun r => (r.1, r.2.2))) =
      some (2, [1]) ∧
    (2 : Int) ≠ ([1] : List Int).sum := by
  refine ⟨by decide, by decide⟩

/-- Claim C6 amended: on graphs built by create_residual_edges and Graph::new
from a duplicate-free edge list with non-negative capacities and zero initial
flows, with source distinct from sink, the value max_flow returns equals both
the sum of the bottleneck values pushed over all augmentations and the final
flow out of the source summed over nonzero-capacity adjacency slots (the only
accumulation the code performs); with duplicate edges the two quantities
differ, as the counterexample shows. -/
theorem C6_amended {vl : List Nat} {el : List (Nat × Nat × FlowEdge)}
    {g : Graph FlowEdge} {source sink : Nat} {search : Search}
    (hg : Graph.new vl (create_residual_edges el) = some g)
    (hlen : vl.length < U32_MAX)
    (hcap : ∀ e ∈ el, 0 ≤ e.2.2.capacity)
    (hflow : ∀ e ∈ el, e.2.2.flow = 0)
    (hnd : (el.map (fun e => (e.1, e.2.1))).Nodup)
    (hst : source ≠ sink)
    {fuel : Nat} {v : Int} {g1 : Graph FlowEdge} {bs : List Int}
    (h : max_flow_trace fuel g source sink search = some (v, g1, bs)) :
    v = bs.sum ∧ v = total_from_source g1 source ∧
    max_flow fuel g source sink search = some (v, g1) := by
  obtain ⟨hwf, hflow0, hn⟩ := built_graphWF hg hlen hcap hflow hnd
  have hfi := zeroFlow_flowInv source sink hwf hflow0
  obtain ⟨A1, A2, A3, A4, A5, A6, A7, A8, A9⟩ :=
    max_flow_trace_spec fuel g v g1 bs hwf hfi hst h
  have hrow0 : rowSum g.edges g.n_vertexes source = 0 :=
    Finset.sum_eq_zero (fun w _ => hflow0 source w)
  have hv : v = rowSum g1.edges g1.n_vertexes source := by
    rw [A3, total_eq_rowSum A1 A2]
  refine ⟨?_, A3, A9⟩
  rw [hv, A4, hrow0, zero_add]

/-- Witness for C6 amended on the graph built from the single unit edge 0 to 1
with its residual: the returned value 1 matches the bottleneck sum and the
final source outflow. -/
theorem C6_amended_witness :
    (1 : Int) = ([1] : List Int).sum ∧
    (1 : Int) = total_from_source
      (⟨[[FlowEdge.zero, ⟨1, 1⟩], [⟨0, -1⟩, FlowEdge.zero]],
        [[1], [0]], 2, 2⟩ : Graph FlowEdge) 0 ∧
    max_flow 5
      (⟨[[FlowEdge.zero, ⟨1, 0⟩], [FlowEdge.zero, FlowEdge.zero]],
        [[1], [0]], 2, 2⟩ : Graph FlowEdge) 0 1 Search.Bfs =
      some (1, ⟨[[FlowEdge.zero, ⟨1, 1⟩], [⟨0, -1⟩, FlowEdge.zero]],
        [[1], [0]], 2, 2⟩) :=
  @C6_amended [0, 1] [(0, 1, ⟨1, 0⟩)]
    ⟨[[FlowEdge.zero, ⟨1, 0⟩], [FlowEdge.zero, FlowEdge.zero]], [[1], [0]], 2, 2⟩
    0 1 Search.Bfs (by decide) (by decide) (by decide) (by decide) (by decide)
    (by decide) 5 1
    ⟨[[FlowEdge.zero, ⟨1, 1⟩], [⟨0, -1⟩, FlowEdge.zero]], [[1], [0]], 2, 2⟩
    [1] (by decide)

end MaxFlowRs
